import Mathlib

/-!
# Verification of the beam consensus core (`src/core/block_crypt.cpp`)

This file is a shallow embedding of the consensus-critical routines of
`block_crypt.cpp` — height ranges, amounts, ledger objects, the kernel
recursion, the streaming validator `Context`, block subsidy validation,
the difficulty codec and the chain-work-proof sampler/verifier — together
with theorems settling the specified properties.

Machine integers are modelled as `Nat` with explicit `% 2^w` wherever the
C++ arithmetic can overflow.  External elliptic-curve primitives (the
point import, range-proof and signature verification, the hash) are
opaque in the source and are modelled as parameters bundled in `Prims`;
curve points live in an arbitrary `AddCommGroup`.
-/

namespace BeamSpec

/-- Width of a 64-bit machine word (`Height`, `Amount`, `Timestamp`). -/
def W64 : Nat := 2 ^ 64

/-- Width of the 128-bit `AmountBig` aggregate. -/
def W128 : Nat := 2 ^ 128

/-- Width of the 256-bit `ECC::uintBig` / `Difficulty::Raw` integers. -/
def W256 : Nat := 2 ^ 256

/-- MaxHeight is `Height(-1)`, the all-ones 64-bit value. -/
def MaxHeight : Nat := W64 - 1

/-! ## HeightRange -/

/-- Closed interval on the height axis (`HeightRange` in `block_crypt.h`). -/
structure HeightRange where
  mMin : Nat
  mMax : Nat
deriving DecidableEq

/-- HeightRange::Intersect: pointwise max of minima and min of maxima. -/
def HeightRange.Intersect (a b : HeightRange) : HeightRange :=
  ⟨max a.mMin b.mMin, min a.mMax b.mMax⟩

/-- HeightRange::IsEmpty: the interval is empty iff `m_Min > m_Max`. -/
def HeightRange.IsEmpty (a : HeightRange) : Bool :=
  a.mMin > a.mMax

/-! ## Amounts

`AmountBig` is a pair of 64-bit words with manual carry propagation;
`operator += (Amount)` and `operator += (AmountBig)` are translated with
explicit `% 2^64` wraps exactly as the C++ performs them. -/

/-- 128-bit additive aggregate of 64-bit amounts (`AmountBig { Lo, Hi }`). -/
structure AmountBig where
  lo : Nat
  hi : Nat
deriving DecidableEq

/-- AmountBig::operator += (Amount): `Lo += x; if (Lo < x) Hi++;`. -/
def AmountBig.addAmount (a : AmountBig) (x : Nat) : AmountBig :=
  let lo := (a.lo + x) % W64
  ⟨lo, if lo < x then (a.hi + 1) % W64 else a.hi⟩

/-- AmountBig::operator += (AmountBig): add `x.Lo` with carry, then `Hi += x.Hi`. -/
def AmountBig.addBig (a x : AmountBig) : AmountBig :=
  let b := a.addAmount x.lo
  ⟨b.lo, (b.hi + x.hi) % W64⟩

/-- Value denoted by an `AmountBig`, as exported into a 256-bit integer by
`AmountBig::Export` (`Lo` in the low 64 bits, `Hi` in the next 64). -/
def AmountBig.val (a : AmountBig) : Nat :=
  a.lo + W64 * a.hi

/-- Well-formedness of an `AmountBig`: both machine words in range. -/
def AmountBig.Wf (a : AmountBig) : Prop :=
  a.lo < W64 ∧ a.hi < W64

instance (a : AmountBig) : Decidable a.Wf := by
  unfold AmountBig.Wf; infer_instance

/-! ## Rules

`Rules` is the process-wide parameter singleton.  Its numeric fields are
64-bit amounts/heights configured at startup; the embedding passes a
`Rules` value explicitly. -/

/-- Consensus parameters (the `Rules` singleton fields used by the core). -/
structure Rules where
  CoinbaseEmission : Nat
  MaturityCoinbase : Nat
  MaturityStd : Nat
  AllowPublicUtxos : Bool
  FakePoW : Bool
deriving DecidableEq

/-- Rules::HeightGenesis = 1 (`const Height Rules::HeightGenesis = 1;`). -/
def HeightGenesis : Nat := 1

/-! ## HeightAdd and output maturity (claim C9) -/

/-- HeightAdd: `trg += val; if (trg < val) trg = Height(-1);` — 64-bit add
that saturates to `MaxHeight` when the wrapped result dropped below `val`. -/
def HeightAdd (trg val : Nat) : Nat :=
  if (trg + val) % W64 < val then MaxHeight else (trg + val) % W64

/-! ## Three-way comparisons

`CMP_SIMPLE` on machine scalars is numeric three-way comparison. -/

/-- CMP_SIMPLE on numeric members. -/
def cmpN (a b : Nat) : Int :=
  if a < b then -1 else if b < a then 1 else 0

/-- CMP_SIMPLE on `bool` members (`false < true`, as in C++). -/
def cmpB (a b : Bool) : Int :=
  cmpN a.toNat b.toNat

/-- Sequencing of three-way comparisons: return the first nonzero result. -/
def cmpSeq (a b : Int) : Int :=
  if a ≠ 0 then a else b

theorem cmpN_self (a : Nat) : cmpN a a = 0 := by
  simp [cmpN]

/-! ## Ledger objects

Compressed curve points (`ECC::Point`) are serialized as a 32-byte `m_X`
plus a parity byte and compare lexicographically; modelled from the spec as
a single `Nat` with numeric order (32-byte big-endian lex order is numeric
order).  Signatures and hash values are opaque external scalars, likewise
modelled as `Nat` with numeric comparison. -/

/-- CommitmentAndMaturity, the base of `Input` and `Output`. -/
structure CommitmentAndMaturity where
  mCommitment : Nat
  mMaturity : Nat
deriving DecidableEq

/-- CommitmentAndMaturity::cmp_CaM: commitment first, then maturity. -/
def cmpCaM (a b : CommitmentAndMaturity) : Int :=
  cmpSeq (cmpN a.mCommitment b.mCommitment) (cmpN a.mMaturity b.mMaturity)

/-- Input is exactly a `CommitmentAndMaturity` (same comparison). -/
abbrev Input := CommitmentAndMaturity

/-- Opaque public range proof: the disclosed value plus an abstract
identity used only for the canonical ordering (`RangeProof::Public`). -/
structure PubProof where
  mValue : Nat
  tag : Nat
deriving DecidableEq

/-- Opaque confidential range proof (`RangeProof::Confidential`): an
abstract identity used only for the canonical ordering. -/
structure ConfProof where
  tag : Nat
deriving DecidableEq

/-- Output: `CommitmentAndMaturity` base plus coinbase flag, incubation and
the two optional range-proof slots. -/
structure Output extends CommitmentAndMaturity where
  mCoinbase : Bool
  mIncubation : Nat
  mpConfidential : Option ConfProof
  mpPublic : Option PubProof
deriving DecidableEq

/-- Output::get_MinMaturity: creation height plus the coinbase/standard
maturity plus incubation, each addition via the saturating `HeightAdd`. -/
def Output.get_MinMaturity (R : Rules) (o : Output) (h : Nat) : Nat :=
  HeightAdd (HeightAdd h (if o.mCoinbase then R.MaturityCoinbase else R.MaturityStd))
    o.mIncubation

/-- CMP_PTRS on optional members: a present pointer is greater than an
absent one; two present pointers compare by the pointee comparison. -/
def cmpPtr {α : Type} (f : α → α → Int) : Option α → Option α → Int
  | some a, some b => f a b
  | some _, none => 1
  | none, some _ => -1
  | none, none => 0

/-- Ordering on opaque confidential proofs, modelled from the spec through
the abstract identity. -/
def ConfProof.cmp (a b : ConfProof) : Int :=
  cmpN a.tag b.tag

/-- Ordering on opaque public proofs, modelled from the spec through value
then abstract identity. -/
def PubProof.cmp (a b : PubProof) : Int :=
  cmpSeq (cmpN a.mValue b.mValue) (cmpN a.tag b.tag)

/-- Output::cmp: base comparison, then coinbase flag, incubation and the
two proof pointers. -/
def Output.cmp (a b : Output) : Int :=
  cmpSeq (cmpCaM a.toCommitmentAndMaturity b.toCommitmentAndMaturity) <|
  cmpSeq (cmpB a.mCoinbase b.mCoinbase) <|
  cmpSeq (cmpN a.mIncubation b.mIncubation) <|
  cmpSeq (cmpPtr ConfProof.cmp a.mpConfidential b.mpConfidential)
    (cmpPtr PubProof.cmp a.mpPublic b.mpPublic)

/-! ## TxKernel (claim C10) -/

/-- TxKernel: excess point, multiplier, signature, fee, height range,
optional hash-lock preimage and the ordered nested-kernel list. -/
inductive TxKernel where
  | mk : (excess : Nat) → (multiplier : Nat) → (signature : Nat) → (fee : Nat) →
      (hMin : Nat) → (hMax : Nat) → (hashLock : Option Nat) →
      (nested : List TxKernel) → TxKernel

def TxKernel.excess : TxKernel → Nat
  | .mk e _ _ _ _ _ _ _ => e

def TxKernel.multiplier : TxKernel → Nat
  | .mk _ m _ _ _ _ _ _ => m

def TxKernel.signature : TxKernel → Nat
  | .mk _ _ s _ _ _ _ _ => s

def TxKernel.fee : TxKernel → Nat
  | .mk _ _ _ f _ _ _ _ => f

def TxKernel.hMin : TxKernel → Nat
  | .mk _ _ _ _ a _ _ _ => a

def TxKernel.hMax : TxKernel → Nat
  | .mk _ _ _ _ _ b _ _ => b

def TxKernel.hashLock : TxKernel → Option Nat
  | .mk _ _ _ _ _ _ l _ => l

def TxKernel.nested : TxKernel → List TxKernel
  | .mk _ _ _ _ _ _ _ n => n

/-- Height range asserted by a kernel. -/
def TxKernel.height (k : TxKernel) : HeightRange :=
  ⟨k.hMin, k.hMax⟩

mutual

/-- TxKernel::cmp: excess, multiplier, signature, fee, height.min,
height.max, then the nested lists element-wise (the hash-lock is never
inspected). -/
def TxKernel.cmp : TxKernel → TxKernel → Int
  | .mk e1 m1 s1 f1 hn1 hx1 _ n1, .mk e2 m2 s2 f2 hn2 hx2 _ n2 =>
    cmpSeq (cmpN e1 e2) <|
    cmpSeq (cmpN m1 m2) <|
    cmpSeq (cmpN s1 s2) <|
    cmpSeq (cmpN f1 f2) <|
    cmpSeq (cmpN hn1 hn2) <|
    cmpSeq (cmpN hx1 hx2) (TxKernel.cmpList n1 n2)

/-- Element-wise comparison of nested-kernel lists: the loop in
`TxKernel::cmp` — exhausting the right list first yields 1, exhausting the
left list first yields -1. -/
def TxKernel.cmpList : List TxKernel → List TxKernel → Int
  | [], [] => 0
  | _ :: _, [] => 1
  | [], _ :: _ => -1
  | a :: as, b :: bs =>
    cmpSeq (TxKernel.cmp a b) (TxKernel.cmpList as bs)

end

/-! ## Claim C8: difficulty pack/unpack round-trip -/

/-- Modelled from the spec: `s_MantissaBits` is declared in the missing
header `block_crypt.h`; the spec fixes it byte-aligned with the order in
the remaining high bits of a `u32`, and `IsTargetReached` uses
`s_MantissaBits >> 3` bytes, giving the standard 24-bit mantissa. -/
def sMantissaBits : Nat := 24

/-- Modelled from the spec: `s_MaxOrder` is the largest order such that
`(s_MaxOrder + 1) << s_MantissaBits` is the reserved `s_Inf` packed value,
i.e. `2^(32 - s_MantissaBits) - 2`. -/
def sMaxOrder : Nat := 254

/-- Modelled from the spec: `s_Inf` is the packed value whose order field
exceeds `s_MaxOrder`: `(s_MaxOrder + 1) << s_MantissaBits`. -/
def sInf : Nat := 255 * 2 ^ 24

/-- Difficulty::Pack: mask the mantissa to its low `s_MantissaBits`
(dropping the implicit leading bit) and or the order into the high bits
(`mantissa & ((1<<MB)-1)` is `mantissa % 2^MB`; the or of disjoint bit
fields is addition); orders above `s_MaxOrder` pack to `s_Inf`. -/
def Difficulty.Pack (order mantissa : Nat) : Nat :=
  if order ≤ sMaxOrder then
    mantissa % 2 ^ sMantissaBits + order * 2 ^ sMantissaBits
  else sInf

/-- Difficulty::Unpack (order/mantissa form): order from the high bits,
mantissa from the low bits with the implicit leading bit restored. -/
def Difficulty.Unpack (packed : Nat) : Nat × Nat :=
  (packed / 2 ^ sMantissaBits, 2 ^ sMantissaBits + packed % 2 ^ sMantissaBits)

/-- C8: for every order in `[0, s_MaxOrder]` and every mantissa in
`[2^s_MantissaBits, 2^(s_MantissaBits+1))`, `Unpack (Pack order mantissa)`
returns exactly `(order, mantissa)`. -/
theorem difficulty_pack_unpack_roundtrip (order mantissa : Nat)
    (hord : order ≤ sMaxOrder)
    (hlo : 2 ^ sMantissaBits ≤ mantissa)
    (hhi : mantissa < 2 ^ (sMantissaBits + 1)) :
    Difficulty.Unpack (Difficulty.Pack order mantissa) = (order, mantissa) := by
  unfold Difficulty.Unpack Difficulty.Pack sMaxOrder at *
  simp only [if_pos hord]
  unfold sMantissaBits at *
  rw [Prod.mk.injEq]
  constructor <;> omega

/-- Witness for C8 at a concrete packed pair. -/
theorem difficulty_pack_unpack_roundtrip_witness :
    Difficulty.Unpack (Difficulty.Pack 37 (2 ^ 24 + 5)) = (37, 2 ^ 24 + 5) :=
  difficulty_pack_unpack_roundtrip 37 (2 ^ 24 + 5) (by decide) (by decide) (by decide)

/-! ## Claim C9: min-maturity saturation -/

/-- C9: `get_MinMaturity h` is the exact unbounded sum of the creation
height, the applicable maturity constant and the incubation period,
saturated to `MaxHeight`; no wraparound below `MaxHeight` occurs. -/
theorem get_MinMaturity_saturating (R : Rules) (o : Output) (h : Nat)
    (hh : h < W64)
    (hcb : R.MaturityCoinbase < W64) (hstd : R.MaturityStd < W64)
    (hinc : o.mIncubation < W64) :
    o.get_MinMaturity R h =
      min (h + (if o.mCoinbase then R.MaturityCoinbase else R.MaturityStd)
            + o.mIncubation) MaxHeight := by
  unfold Output.get_MinMaturity HeightAdd MaxHeight
  have hc : (if o.mCoinbase then R.MaturityCoinbase else R.MaturityStd) < W64 := by
    split <;> assumption
  generalize (if o.mCoinbase then R.MaturityCoinbase else R.MaturityStd) = m at hc ⊢
  unfold W64 at *
  rw [min_def]
  split_ifs <;> omega

/-- Witness for C9 at a saturating concrete input. -/
theorem get_MinMaturity_saturating_witness :
    (Output.mk ⟨0, 0⟩ true 7 none none).get_MinMaturity ⟨0, 60, 0, false, false⟩
      (W64 - 3) = min ((W64 - 3) + 60 + 7) MaxHeight :=
  get_MinMaturity_saturating ⟨0, 60, 0, false, false⟩ _ (W64 - 3)
    (by decide) (by decide) (by decide) (by decide)

/-! ## Claim C10: the kernel ordering never inspects the hash-lock -/

theorem cmpSeq_zero : cmpSeq 0 b = b := by
  simp [cmpSeq]

/-- C10: two kernels agreeing on excess, multiplier, signature, fee and
height bounds, whose nested lists compare equal element-wise, compare
equal even when their optional hash-lock fields differ. -/
theorem txkernel_cmp_ignores_hashlock
    (e m s f hn hx : Nat) (l1 l2 : Option Nat) (n1 n2 : List TxKernel)
    (hnest : TxKernel.cmpList n1 n2 = 0) :
    TxKernel.cmp (.mk e m s f hn hx l1 n1) (.mk e m s f hn hx l2 n2) = 0 := by
  unfold TxKernel.cmp
  simp [cmpN_self, cmpSeq_zero, hnest]

/-- Witness for C10: same scalars, hash-lock present on one side only. -/
theorem txkernel_cmp_ignores_hashlock_witness :
    TxKernel.cmp (.mk 1 2 3 4 5 6 (some 99) []) (.mk 1 2 3 4 5 6 none []) = 0 :=
  txkernel_cmp_ignores_hashlock 1 2 3 4 5 6 (some 99) none [] [] (by rfl)

/-! ## External primitives

The curve, range proofs, signatures and the hash processor live outside
this translation unit.  `HItem` is one absorbed transcript item; the
external operations are bundled in `Prims` and passed explicitly.  Curve
points (`ECC::Point::Native`) live in an arbitrary additive commutative
group; `H_Big` is the generator `H` prepared for wide scalars, the same
point, and every scalar that reaches it here is below the group order. -/

/-- One item absorbed into an `ECC::Hash::Processor` transcript. -/
inductive HItem where
  | n : Nat → HItem
  | b : Bool → HItem
  | h : Nat → HItem
deriving DecidableEq

/-- Opaque primitive operations consumed by the core. -/
structure Prims (Pt : Type) where
  importPt : Nat → Option Pt
  confValid : ConfProof → Nat → Pt → Bool
  pubValid : PubProof → Nat → Pt → Bool
  sigValid : Nat → Nat → Pt → Bool
  squeeze : List HItem → Nat
  G : Pt
  H : Pt

/-! ## Claim C7: Output::IsValid -/

/-- Output::IsValid: import the commitment, then require exactly one proof
slot, forbid confidential coinbase, forbid public non-coinbase unless
`AllowPublicUtxos`, and delegate to the carried range proof (the oracle is
seeded with the incubation period).  Returns the imported commitment point
on success, `none` on failure. -/
def Output.IsValid {Pt : Type} (P : Prims Pt) (R : Rules) (o : Output) : Option Pt :=
  match P.importPt o.mCommitment with
  | none => none
  | some comm =>
    match o.mpConfidential with
    | some cp =>
      if o.mCoinbase then none
      else match o.mpPublic with
        | some _ => none
        | none => if P.confValid cp o.mIncubation comm then some comm else none
    | none =>
      match o.mpPublic with
      | none => none
      | some pp =>
        if !(R.AllowPublicUtxos || o.mCoinbase) then none
        else if P.pubValid pp o.mIncubation comm then some comm else none

/-- C7: `Output::IsValid` fails on both-proofs, neither-proof, confidential
coinbase, and non-coinbase public without `AllowPublicUtxos`; otherwise,
when the commitment imports, the result is exactly the verdict of the
single carried range proof on that commitment. -/
theorem output_isvalid_characterization {Pt : Type} (P : Prims Pt) (R : Rules)
    (o : Output) :
    (o.mpConfidential.isSome ∧ o.mpPublic.isSome → o.IsValid P R = none) ∧
    (o.mpConfidential = none ∧ o.mpPublic = none → o.IsValid P R = none) ∧
    (o.mCoinbase = true ∧ o.mpConfidential.isSome → o.IsValid P R = none) ∧
    (o.mCoinbase = false ∧ o.mpConfidential = none ∧ R.AllowPublicUtxos = false →
      o.IsValid P R = none) ∧
    (∀ c, P.importPt o.mCommitment = some c →
      (∀ cp, o.mpConfidential = some cp → o.mpPublic = none → o.mCoinbase = false →
        o.IsValid P R = if P.confValid cp o.mIncubation c then some c else none) ∧
      (∀ pp, o.mpPublic = some pp → o.mpConfidential = none →
        (R.AllowPublicUtxos = true ∨ o.mCoinbase = true) →
        o.IsValid P R = if P.pubValid pp o.mIncubation c then some c else none)) := by
  obtain ⟨⟨comm, mat⟩, cb, inc, conf, pub⟩ := o
  unfold Output.IsValid
  dsimp only
  cases himp : P.importPt comm <;>
    cases conf <;> cases pub <;> cases cb <;>
    simp_all

/-- Witness for C7: a concrete public coinbase output accepted over ℤ. -/
theorem output_isvalid_characterization_witness :
    @Output.IsValid ℤ
      ⟨fun n => some (n : ℤ), fun _ _ _ => false, fun _ _ _ => true,
        fun _ _ _ => true, fun _ => 0, 1, 2⟩
      ⟨0, 0, 0, false, false⟩
      ⟨⟨7, 0⟩, true, 0, none, some ⟨40, 0⟩⟩ = some 7 := by
  have h := (@output_isvalid_characterization ℤ
    ⟨fun n => some (n : ℤ), fun _ _ _ => false, fun _ _ _ => true,
      fun _ _ _ => true, fun _ => 0, 1, 2⟩
    ⟨0, 0, 0, false, false⟩
    ⟨⟨7, 0⟩, true, 0, none, some ⟨40, 0⟩⟩).2.2.2.2 7 rfl
  have h2 := h.2 ⟨40, 0⟩ rfl rfl (Or.inr rfl)
  simpa using h2

/-! ## Claim C5: DeleteIntermediateOutputs -/

/-- Transaction vectors (`TxVectors`): the four sorted streams. -/
structure TxData where
  vInputs : List Input
  vOutputs : List Output
  vKernelsInput : List TxKernel
  vKernelsOutput : List TxKernel

/-- Placeholder pointee used to model a C++ dereference of an absent
pointer slot; the executed paths of the delete pass never dereference a
reset slot (and with the cursor starting at the vector end, the inner loop
never executes at all). -/
def junkOutput : Output := ⟨⟨0, 0⟩, false, 0, none, none⟩

/-- Placeholder input pointee, as `junkOutput`. -/
def junkInput : Input := ⟨0, 0⟩

/-- Inner cursor walk of `DeleteIntermediateOutputs`: advance `i1` while
the input is greater than the output; stop at the first `n ≤ 0`, reporting
whether it was an exact `CommitmentAndMaturity` match. -/
def dioInner (pInp : Input) (outs : List (Option Output)) (i1 : Nat) : Nat × Bool :=
  if h : i1 < outs.length then
    let pOut := (outs.get ⟨i1, h⟩).getD junkOutput
    let n := cmpCaM pInp pOut.toCommitmentAndMaturity
    if n ≤ 0 then (i1, decide (n = 0))
    else dioInner pInp outs (i1 + 1)
  else (i1, false)
termination_by outs.length - i1

/-- Outer loop of `DeleteIntermediateOutputs`: for each input, run the
inner walk; on a match reset both slots and count the pair. -/
def dioOuter (inps : List (Option Input)) (outs : List (Option Output))
    (i0 i1 nDel : Nat) : List (Option Input) × List (Option Output) × Nat × Nat :=
  if h : i0 < inps.length then
    let pInp := (inps.get ⟨i0, h⟩).getD junkInput
    let r := dioInner pInp outs i1
    if r.2 then
      dioOuter (inps.set i0 none) (outs.set r.1 none) (i0 + 1) r.1 (nDel + 1)
    else
      dioOuter inps outs (i0 + 1) r.1 nDel
  else (inps, outs, i1, nDel)
termination_by inps.length - i0
decreasing_by
  · simp only [List.length_set]; omega
  · omega

/-- RebuildVectorWithoutNulls: keep the surviving slots. -/
def RebuildVectorWithoutNulls {α : Type} (v : List (Option α)) : List α :=
  v.filterMap id

/-- TxVectors::DeleteIntermediateOutputs, exactly as in the source: the
output cursor `i1` is initialized to `m_vOutputs.size()`. -/
def TxVectors.DeleteIntermediateOutputs (t : TxData) : Nat × TxData :=
  let r := dioOuter (t.vInputs.map some) (t.vOutputs.map some) 0 t.vOutputs.length 0
  let nDel := r.2.2.2
  if nDel ≠ 0 then
    (nDel, { t with vInputs := RebuildVectorWithoutNulls r.1,
                    vOutputs := RebuildVectorWithoutNulls r.2.1 })
  else (nDel, t)

theorem dioInner_out_of_range (pInp : Input) (outs : List (Option Output)) (i1 : Nat)
    (hge : outs.length ≤ i1) : dioInner pInp outs i1 = (i1, false) := by
  rw [dioInner]
  simp [Nat.not_lt.mpr hge]

theorem dioOuter_out_of_range (fuel : Nat) :
    ∀ (inps : List (Option Input)) (outs : List (Option Output)) (i0 i1 nDel : Nat),
    inps.length - i0 ≤ fuel → outs.length ≤ i1 →
    dioOuter inps outs i0 i1 nDel = (inps, outs, i1, nDel) := by
  induction fuel with
  | zero =>
    intro inps outs i0 i1 nDel hf _
    rw [dioOuter]
    simp [Nat.not_lt.mpr (by omega : inps.length ≤ i0)]
  | succ m ih =>
    intro inps outs i0 i1 nDel hf hge
    rw [dioOuter]
    by_cases h : i0 < inps.length
    · simp only [dif_pos h, dioInner_out_of_range _ _ _ hge]
      exact ih inps outs (i0 + 1) i1 nDel (by omega) hge
    · simp [dif_neg h]

/-- C5 (code bug): because the output cursor starts at the end of the
vector, `DeleteIntermediateOutputs` never deletes anything — it returns 0
and leaves every transaction unchanged, for every input. -/
theorem deleteIntermediateOutputs_noop (t : TxData) :
    TxVectors.DeleteIntermediateOutputs t = (0, t) := by
  unfold TxVectors.DeleteIntermediateOutputs
  rw [dioOuter_out_of_range (t.vInputs.map some).length _ _ 0 _ 0 (by omega)
    (by simp)]
  simp

/-! ## Claim C6: TxBase::IWriter::Combine -/

/-- Cursor state of one `IReader` feeding `Combine`: the four remaining
streams (the head of each list is the current item, an empty list a null
cursor). -/
structure RState where
  utxoIn : List Input
  utxoOut : List Output
  kernIn : List TxKernel
  kernOut : List TxKernel

/-- NextUtxoIn: advance the input cursor (no-op past the end). -/
def RState.nextUtxoIn (r : RState) : RState :=
  { r with utxoIn := r.utxoIn.tail }

/-- NextUtxoOut. -/
def RState.nextUtxoOut (r : RState) : RState :=
  { r with utxoOut := r.utxoOut.tail }

/-- NextKernelIn. -/
def RState.nextKernelIn (r : RState) : RState :=
  { r with kernIn := r.kernIn.tail }

/-- NextKernelOut. -/
def RState.nextKernelOut (r : RState) : RState :=
  { r with kernOut := r.kernOut.tail }

/-- Apply `f` to the element at index `i` (used for `ppR[i]->Next...`). -/
def modifyAt {α : Type} (f : α → α) : List α → Nat → List α
  | [], _ => []
  | x :: xs, 0 => f x :: xs
  | x :: xs, n + 1 => x :: modifyAt f xs n

/-- Selection scan of `Combine`: the first reader holding the strictly
smallest current item (a candidate replaces the incumbent only when the
incumbent compares strictly greater). -/
def pickMin {α : Type} (cmp : α → α → Int) (heads : List (Option α)) :
    Option (Nat × α) :=
  (heads.zip (List.range heads.length)).foldl
    (fun acc hi =>
      match hi.1 with
      | none => acc
      | some x =>
        match acc with
        | none => some (hi.2, x)
        | some (j, y) => if cmp y x > 0 then some (hi.2, x) else some (j, y))
    none

/-- UTXO half of `Combine`: k-way merge of the input/output streams,
cancelling exact `CommitmentAndMaturity` matches.  The C++ loop runs until
both selections are empty; the embedding spends one unit of fuel per
iteration, so with the stop flag clear a `none` result means the loop
failed to terminate within the allotted fuel. -/
def combineUtxo (bStop : Bool) : Nat → List Input → List Output → List RState →
    Option (List Input × List Output × List RState)
  | 0, _, _, _ => none
  | fuel + 1, accIn, accOut, rs =>
    if bStop then none
    else
      match pickMin cmpCaM (rs.map (fun r => r.utxoIn.head?)),
            pickMin Output.cmp (rs.map (fun r => r.utxoOut.head?)) with
      | none, none => some (accIn, accOut, rs)
      | some (iInp, inp), none =>
        combineUtxo bStop fuel (accIn ++ [inp]) accOut (modifyAt RState.nextUtxoIn rs iInp)
      | none, some (iOut, out) =>
        combineUtxo bStop fuel accIn (accOut ++ [out]) (modifyAt RState.nextUtxoOut rs iOut)
      | some (iInp, inp), some (iOut, out) =>
        let n := cmpCaM inp out.toCommitmentAndMaturity
        if n > 0 then
          combineUtxo bStop fuel accIn (accOut ++ [out]) (modifyAt RState.nextUtxoOut rs iOut)
        else if n = 0 then
          combineUtxo bStop fuel accIn accOut
            (modifyAt RState.nextUtxoOut (modifyAt RState.nextUtxoIn rs iInp) iOut)
        else
          combineUtxo bStop fuel (accIn ++ [inp]) accOut (modifyAt RState.nextUtxoIn rs iInp)

/-- Kernel half of `Combine`, translated exactly as written: on an exact
kernel match the source advances the **UTXO** cursors of the two readers
involved (`NextUtxoIn`/`NextUtxoOut`), not the kernel cursors. -/
def combineKernels (bStop : Bool) : Nat → List TxKernel → List TxKernel → List RState →
    Option (List TxKernel × List TxKernel × List RState)
  | 0, _, _, _ => none
  | fuel + 1, accIn, accOut, rs =>
    if bStop then none
    else
      match pickMin TxKernel.cmp (rs.map (fun r => r.kernIn.head?)),
            pickMin TxKernel.cmp (rs.map (fun r => r.kernOut.head?)) with
      | none, none => some (accIn, accOut, rs)
      | some (iInp, inp), none =>
        combineKernels bStop fuel (accIn ++ [inp]) accOut (modifyAt RState.nextKernelIn rs iInp)
      | none, some (iOut, out) =>
        combineKernels bStop fuel accIn (accOut ++ [out]) (modifyAt RState.nextKernelOut rs iOut)
      | some (iInp, inp), some (iOut, out) =>
        let n := TxKernel.cmp inp out
        if n > 0 then
          combineKernels bStop fuel accIn (accOut ++ [out]) (modifyAt RState.nextKernelOut rs iOut)
        else if n = 0 then
          combineKernels bStop fuel accIn accOut
            (modifyAt RState.nextUtxoOut (modifyAt RState.nextUtxoIn rs iInp) iOut)
        else
          combineKernels bStop fuel (accIn ++ [inp]) accOut (modifyAt RState.nextKernelIn rs iInp)

/-- TxBase::IWriter::Combine: reset the readers (the lists are given at
their start) and run the UTXO merge followed by the kernel merge. -/
def IWriter.Combine (bStop : Bool) (fuelU fuelK : Nat) (rs : List RState) :
    Option (List Input × List Output × List TxKernel × List TxKernel) :=
  match combineUtxo bStop fuelU [] [] rs with
  | none => none
  | some (eIn, eOut, rs') =>
    match combineKernels bStop fuelK [] [] rs' with
    | none => none
    | some (kIn, kOut, _) => some (eIn, eOut, kIn, kOut)

/-- The matching kernel pair that exhibits the bug. -/
def bugKernel : TxKernel := .mk 1 1 1 0 0 0 none []

/-- Reader pair for the C6 failing input: reader 0 holds the in-kernel,
reader 1 the identical out-kernel; all UTXO streams are empty. -/
def bugReaders : List RState := [⟨[], [], [bugKernel], []⟩, ⟨[], [], [], [bugKernel]⟩]

/-- C6 (code bug): on a matching (in-kernel, out-kernel) pair the kernel
merge advances the UTXO cursors, so its state never changes and the loop
never terminates — for every fuel bound the kernel half of `Combine`
fails to finish on `bugReaders`. -/
theorem combineKernels_diverges_on_match :
    ∀ (fuel : Nat) (accIn accOut : List TxKernel),
      combineKernels false fuel accIn accOut bugReaders = none := by
  intro fuel
  induction fuel with
  | zero => intro accIn accOut; rfl
  | succ m ih =>
    intro accIn accOut
    show combineKernels false m accIn accOut bugReaders = none
    exact ih accIn accOut

/-- C6, full-routine form: with the stop flag clear, `Combine` on the
failing readers returns nothing for every kernel-phase fuel bound. -/
theorem combine_diverges_on_kernel_match (fuelK : Nat) :
    IWriter.Combine false 1 fuelK bugReaders = none := by
  unfold IWriter.Combine
  have hu : combineUtxo false 1 [] [] bugReaders = some ([], [], bugReaders) := rfl
  rw [hu]
  dsimp only
  rw [combineKernels_diverges_on_match fuelK [] []]

/-! ## Validator context and block validation (claim C1) -/

/-- TxBase::Context: the streaming validator state.  `mAbort` is the value
read when polling the abort flag (`false` when no flag is installed). -/
structure Context (Pt : Type) where
  mSigma : Pt
  mFee : AmountBig
  mCoinbase : AmountBig
  mHeight : HeightRange
  mBlockMode : Bool
  mNVerifiers : Nat
  mIVerifier : Nat
  mAbort : Bool

/-- AmountBig::AddTo: add `H · value` to a running point sum.  When `Hi`
is nonzero the value is exported into a scalar and multiplied onto `H_Big`
(the same generator `H`; the 128-bit value is below the group order, so
the scalar reduction is the identity); otherwise `H` is multiplied by the
64-bit `Lo` directly. -/
def AmountBig.AddTo {Pt : Type} [AddCommGroup Pt] (P : Prims Pt) (a : AmountBig)
    (res : Pt) : Pt :=
  if a.hi ≠ 0 then res + a.val • P.H
  else if a.lo ≠ 0 then res + a.lo • P.H
  else res

/-- Block::BodyBase: subsidy amount, closing marker and the group offset. -/
structure BodyBase where
  mSubsidy : AmountBig
  mSubsidyClosing : Bool
  mOffset : Nat

/-- TxBase::Context::IsValidBlock: negate `Σ`, fold in `H · subsidy` and
require zero; then, unless the subsidy is open, forbid a second closing,
bound the subsidy by `blocks_in_range · CoinbaseEmission` (256-bit
arithmetic), and when the range exceeds `MaturityCoinbase` require the
accumulated coinbase to cover the subsidy minus what may already have been
spent. -/
def Context.IsValidBlock {Pt : Type} [AddCommGroup Pt] [DecidableEq Pt]
    (ctx : Context Pt) (P : Prims Pt) (R : Rules) (bb : BodyBase)
    (bSubsidyOpen : Bool) : Bool :=
  let sigma := AmountBig.AddTo P bb.mSubsidy (-ctx.mSigma)
  if sigma ≠ 0 then false
  else if bSubsidyOpen then true
  else if bb.mSubsidyClosing then false
  else
    let nBlocksInRange :=
      ((ctx.mHeight.mMax % W64 + W64 - ctx.mHeight.mMin % W64) % W64 + 1) % W64
    let ubSubsidy := bb.mSubsidy.val
    let mul := R.CoinbaseEmission
    let ubCoinbase := nBlocksInRange * mul % W256
    if ubSubsidy > ubCoinbase then false
    else
      let ubSubsidy2 :=
        if nBlocksInRange > R.MaturityCoinbase then
          let ubC2 := (nBlocksInRange - R.MaturityCoinbase) * mul % W256
          if ubSubsidy > ubC2 then (ubSubsidy + (W256 - ubC2)) % W256
          else 0
        else ubSubsidy
      decide (ctx.mCoinbase.val ≥ ubSubsidy2)

/-- Concrete primitives over ℤ used by the C1 instances. -/
def cPrims : Prims ℤ :=
  ⟨fun n => some (n : ℤ), fun _ _ _ => true, fun _ _ _ => true,
    fun _ _ _ => true, fun _ => 0, 2, 1⟩

/-- Rules instance for the C1 instances: emission 10, coinbase maturity 2. -/
def cRules : Rules := ⟨10, 2, 0, false, false⟩

/-- Context for the C1 instances: Σ matching a subsidy of 90, height range
[1,10] (10 blocks), accumulated coinbase 10. -/
def cCtx : Context ℤ := ⟨90, ⟨0, 0⟩, ⟨10, 0⟩, ⟨1, 10⟩, true, 1, 0, false⟩

/-- Body for the C1 instances: subsidy 90, not closing. -/
def cBB : BodyBase := ⟨⟨90, 0⟩, false, 0⟩

/-- C1 counterexample: the block above is accepted by `IsValidBlock`
although the spec's coverage bound
`(blocks_in_range − MaturityCoinbase) · CoinbaseEmission −
(CoinbaseEmission · blocks_in_range − subsidy)` (= 80 − (100 − 90) = 70)
exceeds the accumulated coinbase total of 10 — the claimed necessary
condition fails on an accepted block. -/
theorem isValidBlock_claimed_bound_counterexample :
    cCtx.IsValidBlock cPrims cRules cBB false = true ∧
    ¬ ((cCtx.mCoinbase.val : ℤ) ≥
        ((10 - 2) * 10 : ℤ) - (10 * 10 - (cBB.mSubsidy.val : ℤ))) := by
  constructor
  · decide
  · decide

/-- C1 as amended: an accepted non-open block satisfies the zero-sum
condition, has no closing marker, a subsidy within
`blocks_in_range · CoinbaseEmission`, and — when `blocks_in_range`
exceeds `MaturityCoinbase` — an accumulated coinbase of at least
`subsidy − (blocks_in_range − MaturityCoinbase) · CoinbaseEmission`. -/
theorem isValidBlock_necessary_conditions {Pt : Type} [AddCommGroup Pt]
    [DecidableEq Pt] (P : Prims Pt) (R : Rules) (ctx : Context Pt) (bb : BodyBase)
    (hmin : 1 ≤ ctx.mHeight.mMin) (hne : ctx.mHeight.mMin ≤ ctx.mHeight.mMax)
    (hmax : ctx.mHeight.mMax < W64)
    (hCE : R.CoinbaseEmission < W64) (hMC : R.MaturityCoinbase < W64)
    (hsub : bb.mSubsidy.Wf) (hcb : ctx.mCoinbase.Wf)
    (hv : ctx.IsValidBlock P R bb false = true) :
    AmountBig.AddTo P bb.mSubsidy (-ctx.mSigma) = 0 ∧
    bb.mSubsidyClosing = false ∧
    bb.mSubsidy.val ≤ (ctx.mHeight.mMax - ctx.mHeight.mMin + 1) * R.CoinbaseEmission ∧
    ((ctx.mHeight.mMax - ctx.mHeight.mMin + 1) > R.MaturityCoinbase →
      ctx.mCoinbase.val ≥
        bb.mSubsidy.val -
          (ctx.mHeight.mMax - ctx.mHeight.mMin + 1 - R.MaturityCoinbase)
            * R.CoinbaseEmission) := by
  unfold Context.IsValidBlock at hv
  dsimp only at hv
  set B := ctx.mHeight.mMax - ctx.mHeight.mMin + 1 with hB
  have hBW : B < W64 := by unfold W64 at *; omega
  have hBpos : 0 < B := by omega
  have hnb :
      ((ctx.mHeight.mMax % W64 + W64 - ctx.mHeight.mMin % W64) % W64 + 1) % W64 = B := by
    have h1 : ctx.mHeight.mMax % W64 = ctx.mHeight.mMax := Nat.mod_eq_of_lt hmax
    have h2 : ctx.mHeight.mMin % W64 = ctx.mHeight.mMin :=
      Nat.mod_eq_of_lt (lt_of_le_of_lt hne hmax)
    rw [h1, h2]
    unfold W64 at *
    omega
  rw [hnb] at hv
  -- the 256-bit products do not wrap
  have hmul : B * R.CoinbaseEmission < W256 := by
    calc B * R.CoinbaseEmission < W64 * W64 :=
          Nat.mul_lt_mul_of_lt_of_lt hBW hCE
    _ ≤ W256 := by unfold W64 W256; norm_num
  have hmul2 : (B - R.MaturityCoinbase) * R.CoinbaseEmission < W256 := by
    refine lt_of_le_of_lt ?_ hmul
    exact Nat.mul_le_mul_right _ (by omega)
  have hmulmod : B * R.CoinbaseEmission % W256 = B * R.CoinbaseEmission :=
    Nat.mod_eq_of_lt hmul
  have hmul2mod :
      (B - R.MaturityCoinbase) * R.CoinbaseEmission % W256 =
        (B - R.MaturityCoinbase) * R.CoinbaseEmission :=
    Nat.mod_eq_of_lt hmul2
  rw [hmulmod, hmul2mod] at hv
  have hsv : bb.mSubsidy.val < W256 := by
    obtain ⟨hl, hh⟩ := hsub
    unfold AmountBig.val
    unfold W64 at hl hh
    unfold W64 W256
    omega
  by_cases hσ : AmountBig.AddTo P bb.mSubsidy (-ctx.mSigma) = 0
  · rw [if_neg (not_not_intro hσ)] at hv
    rw [if_neg (by simp : ¬ (false = true))] at hv
    by_cases hcl : bb.mSubsidyClosing = true
    · rw [if_pos hcl] at hv
      exact absurd hv (by simp)
    · rw [if_neg hcl] at hv
      by_cases hover : bb.mSubsidy.val > B * R.CoinbaseEmission
      · rw [if_pos hover] at hv
        exact absurd hv (by simp)
      · rw [if_neg hover] at hv
        refine ⟨hσ, by simpa using hcl, by omega, ?_⟩
        intro hBMC
        rw [if_pos hBMC] at hv
        by_cases hcase : bb.mSubsidy.val > (B - R.MaturityCoinbase) * R.CoinbaseEmission
        · rw [if_pos hcase] at hv
          have hmod :
              (bb.mSubsidy.val +
                (W256 - (B - R.MaturityCoinbase) * R.CoinbaseEmission)) % W256 =
              bb.mSubsidy.val - (B - R.MaturityCoinbase) * R.CoinbaseEmission := by
            have hsplit : bb.mSubsidy.val +
                (W256 - (B - R.MaturityCoinbase) * R.CoinbaseEmission) =
                (bb.mSubsidy.val - (B - R.MaturityCoinbase) * R.CoinbaseEmission)
                  + W256 := by omega
            rw [hsplit, Nat.add_mod_right]
            exact Nat.mod_eq_of_lt (by omega)
          rw [hmod] at hv
          exact of_decide_eq_true hv
        · rw [if_neg hcase] at hv
          have hge := of_decide_eq_true hv
          omega
  · rw [if_pos hσ] at hv
    exact absurd hv (by simp)

/-- Witness for the amended C1 at the concrete accepted block. -/
theorem isValidBlock_necessary_conditions_witness :
    AmountBig.AddTo cPrims cBB.mSubsidy (-cCtx.mSigma) = 0 ∧
    cBB.mSubsidyClosing = false ∧
    cBB.mSubsidy.val ≤ (cCtx.mHeight.mMax - cCtx.mHeight.mMin + 1)
      * cRules.CoinbaseEmission ∧
    ((cCtx.mHeight.mMax - cCtx.mHeight.mMin + 1) > cRules.MaturityCoinbase →
      cCtx.mCoinbase.val ≥
        cBB.mSubsidy.val -
          (cCtx.mHeight.mMax - cCtx.mHeight.mMin + 1 - cRules.MaturityCoinbase)
            * cRules.CoinbaseEmission) :=
  isValidBlock_necessary_conditions cPrims cRules cCtx cBB
    (by decide) (by decide) (by decide) (by decide) (by decide)
    (by decide) (by decide) (by decide)

/-! ## Claim C4: the chain-work sampler -/

/-- TakeFraction: the byte-wise right shift by 7 bits of a 256-bit
big-endian integer is division by 128 (the dropped low 7 bits vanish, the
top 7 bits fill with zero). -/
def TakeFraction (v : Nat) : Nat :=
  v / 128

/-- Sampler state: the current work window `[m_Begin, m_End)` and the
crop bound, all 256-bit values. -/
structure SamplerState where
  mBegin : Nat
  mEnd : Nat
  mLowerBound : Nat
deriving DecidableEq

/-- Sampler::SamplePoint.  `ur i t` is the accepted draw of the `i`-th
`UnfiromRandom` call at threshold `t` — the oracle is external and the
masked accept/reject loop yields a uniform value in `[0, t)`, so the draw
is passed as a function (contracted to `ur i t < t` where a theorem needs
it).  Negation of a 256-bit value is `(2^256 − v) % 2^256`; each `+=` wraps
modulo `2^256`. -/
def SamplePoint (ur : Nat → Nat → Nat) (i : Nat) (s : SamplerState) :
    Bool × Nat × SamplerState :=
  let range0 := ((W256 - s.mBegin % W256) % W256 + s.mEnd) % W256
  let range1 := TakeFraction range0
  let range2 := if range1 = 0 then 1 else range1
  let bAllCovered := decide (range2 ≥ s.mBegin)
  let rnd := ur i range2
  let negRange := (W256 - range2 % W256) % W256
  let out := ((rnd + s.mBegin) % W256 + negRange) % W256
  if out < s.mLowerBound ∨ out ≥ s.mBegin then (false, out, s)
  else
    (true, out,
      { s with mBegin := if bAllCovered then 0 else (s.mBegin + negRange) % W256 })

/-- Concrete draw stream for the C4 instances: always 37 (reduced by the
threshold, so the uniform contract holds). -/
def cUr : Nat → Nat → Nat :=
  fun _ t => 37 % t

/-- Concrete sampler state for the C4 instances: window
`[1000000, 1012800)`, bound 0, giving `range = 100`. -/
def cSamp : SamplerState := ⟨1000000, 1012800, 0⟩

/-- C4 counterexample: at `cSamp` the sampler draws 37 and outputs
`begin − range + random = 999937`, not the claimed
`begin + range − random = 1000000 + 100 − 37 = 1000063`. -/
theorem samplePoint_out_formula_counterexample :
    (SamplePoint cUr 0 cSamp).2.1 = 999937 ∧
    (SamplePoint cUr 0 cSamp).2.1 ≠ cSamp.mBegin + 100 - 37 := by
  constructor
  · decide
  · decide

/-- C4 as amended: `range = (end − begin) / 128` (1 if zero); the output
is `out = begin − range + random (mod 2^256)` for the uniform draw
`random`; the call returns false exactly when `out < lower_bound` or
`out ≥ begin`, and otherwise advances `begin` to 0 when `range ≥ begin`
and down by `range` otherwise. -/
theorem samplePoint_characterization (ur : Nat → Nat → Nat) (i : Nat)
    (s : SamplerState) (hb : s.mBegin ≤ s.mEnd) (he : s.mEnd < W256) :
    SamplePoint ur i s =
      (fun range rnd out =>
        if out < s.mLowerBound ∨ out ≥ s.mBegin then (false, out, s)
        else (true, out,
          { s with mBegin := if range ≥ s.mBegin then 0 else s.mBegin - range }))
      (if (s.mEnd - s.mBegin) / 128 = 0 then 1 else (s.mEnd - s.mBegin) / 128)
      (ur i (if (s.mEnd - s.mBegin) / 128 = 0 then 1 else (s.mEnd - s.mBegin) / 128))
      ((s.mBegin + (W256 - (if (s.mEnd - s.mBegin) / 128 = 0 then 1
          else (s.mEnd - s.mBegin) / 128))
        + ur i (if (s.mEnd - s.mBegin) / 128 = 0 then 1 else (s.mEnd - s.mBegin) / 128))
        % W256) := by
  unfold SamplePoint TakeFraction
  dsimp only
  have hbl : s.mBegin < W256 := lt_of_le_of_lt hb he
  have hbm : s.mBegin % W256 = s.mBegin := Nat.mod_eq_of_lt hbl
  have hr0 : ((W256 - s.mBegin % W256) % W256 + s.mEnd) % W256 = s.mEnd - s.mBegin := by
    rw [hbm]
    rcases Nat.eq_zero_or_pos s.mBegin with h0 | hpos
    · simp [h0, Nat.mod_self, Nat.mod_eq_of_lt he]
    · have h1 : (W256 - s.mBegin) % W256 = W256 - s.mBegin :=
        Nat.mod_eq_of_lt (by omega)
      rw [h1]
      have h2 : W256 - s.mBegin + s.mEnd = (s.mEnd - s.mBegin) + W256 := by omega
      rw [h2, Nat.add_mod_right]
      exact Nat.mod_eq_of_lt (by omega)
  rw [hr0]
  set range := if (s.mEnd - s.mBegin) / 128 = 0 then 1 else (s.mEnd - s.mBegin) / 128
    with hrange
  have hrpos : 0 < range := by
    rw [hrange]; split <;> omega
  have hrlt : range < W256 := by
    rw [hrange]
    have : (s.mEnd - s.mBegin) / 128 < W256 := by
      have := Nat.div_le_self (s.mEnd - s.mBegin) 128
      omega
    split <;> unfold W256 at * <;> omega
  have hrm : range % W256 = range := Nat.mod_eq_of_lt hrlt
  have hnm : (W256 - range) % W256 = W256 - range := Nat.mod_eq_of_lt (by omega)
  rw [hrm, hnm]
  have hout : ((ur i range + s.mBegin) % W256 + (W256 - range)) % W256 =
      (s.mBegin + (W256 - range) + ur i range) % W256 := by
    rw [Nat.mod_add_mod]
    congr 1
    omega
  rw [hout]
  congr 1
  by_cases hcov : range ≥ s.mBegin
  · simp [hcov]
  · have h3 : (s.mBegin + (W256 - range)) % W256 = s.mBegin - range := by
      have h4 : s.mBegin + (W256 - range) = (s.mBegin - range) + W256 := by omega
      rw [h4, Nat.add_mod_right]
      exact Nat.mod_eq_of_lt (by omega)
    simp [hcov, h3]

/-- Witness for the amended C4 at the concrete sampler state. -/
theorem samplePoint_characterization_witness :
    SamplePoint cUr 0 cSamp = (true, 999937, ⟨999900, 1012800, 0⟩) := by
  rw [samplePoint_characterization cUr 0 cSamp (by decide) (by decide)]
  decide

/-! ## Claim C3: ChainWorkProof::IsValid keeps states strictly decreasing -/

/-- Block::SystemState::Full fields used by the verifier.  The PoW
solution indices and nonce only reach the core through the opaque hash and
solver, which are abstracted in `CwpPrims`. -/
structure SystemState where
  mHeight : Nat
  mPrev : Nat
  mChainWork : Nat
  mDefinition : Nat
  mTimeStamp : Nat
  mDiffPacked : Nat
deriving DecidableEq

/-- Difficulty::Unpack (raw form): mantissa shifted by order within 256
bits when the packed value is finite (`m_Packed < s_Inf`), all-ones
otherwise; modelled from the spec for `AssignSafe`, which writes
`mantissa << order` into a 256-bit integer. -/
def Difficulty.UnpackRaw (packed : Nat) : Nat :=
  if packed < sInf then
    (Difficulty.Unpack packed).2 * 2 ^ (Difficulty.Unpack packed).1 % W256
  else W256 - 1

/-- Difficulty::Dec: `res = base − raw` modulo 2^256 (unpack, negate,
add). -/
def Difficulty.Dec (packed base : Nat) : Nat :=
  ((W256 - Difficulty.UnpackRaw packed % W256) % W256 + base) % W256

/-- SystemState::Full::IsSane: height at least genesis, and at genesis the
previous hash must be zero. -/
def SystemState.IsSane (s : SystemState) : Bool :=
  if s.mHeight < HeightGenesis then false
  else if s.mHeight = HeightGenesis ∧ s.mPrev ≠ 0 then false
  else true

/-- External operations used by the chain-work-proof verifier: the header
hash, the PoW solver check, and the `Merkle::MultiProof::Verifier` (from
the merkle unit, outside this translation unit) with its state type `VS`:
construction from the proof hashes and element count, the
`m_hvPos := hash; Process(idx)` step (which also folds the root check
against `hv_root_live` and the tip definition), the `m_bVerify` flag and
the count of proof hashes consumed. -/
structure CwpPrims (VS : Type) where
  stateHash : SystemState → Nat
  powValid : SystemState → Bool
  verInit : List Nat → Nat → VS
  verProcess : VS → Nat → Nat → VS
  verOk : VS → Bool
  verPos : VS → Nat

/-- SystemState::Full::IsValidPoW: trivially true under `FakePoW`,
otherwise the external solver verdict. -/
def SystemState.IsValidPoW {VS : Type} (CP : CwpPrims VS) (R : Rules)
    (s : SystemState) : Bool :=
  if R.FakePoW then true else CP.powValid s

/-- Block::ChainWorkProof: the sampled state list, the multi-proof hash
data, the crop bound and the live-UTXO root co-factor. -/
structure ChainWorkProof where
  vStates : List SystemState
  proofData : List Nat
  mLowerBound : Nat
  hvRootLive : Nat

/-- Verification loop of `IsValidInternal`: replay the sampler; for every
sampled point check the state's work range, the linkage to the previous
state (direct `prev`-hash linkage at adjacent heights, Merkle processing
otherwise), and lower the window.  Returns the unconsumed states and the
verifier state; the C++ reads `m_vStates[iState]` unchecked, so running
out of states is modelled as failure. -/
def cwpLoop {VS : Type} (CP : CwpPrims VS) (ur : Nat → Nat → Nat) :
    List SystemState → SystemState → Nat → SamplerState → VS → Nat →
    Option (List SystemState × VS)
  | states, prev, dLoPrev, samp, vs, i =>
    match SamplePoint ur i samp with
    | (false, _, _) => some (states, vs)
    | (true, dSamp, samp') =>
      match states with
      | [] => none
      | s :: rest =>
        if dSamp ≥ s.mChainWork then none
        else
          let dLo := Difficulty.Dec s.mDiffPacked s.mChainWork
          if dSamp < dLo then none
          else
            let hvPos := CP.stateHash s
            let samp2 := if samp'.mBegin > dLo then { samp' with mBegin := dLo } else samp'
            if (s.mHeight + 1) % W64 = prev.mHeight then
              if prev.mPrev ≠ hvPos then none
              else if s.mChainWork ≠ dLoPrev then none
              else cwpLoop CP ur rest s dLo samp2 vs (i + 1)
            else
              if s.mHeight ≥ prev.mHeight then none
              else if s.mChainWork ≥ dLoPrev then none
              else
                let vs' := CP.verProcess vs hvPos (s.mHeight - HeightGenesis)
                if ¬ CP.verOk vs' then none
                else cwpLoop CP ur rest s dLo samp2 vs' (i + 1)

/-- Block::ChainWorkProof::IsValidInternal: sanity- and PoW-check every
state, seed the sampler from the tip (rejecting a wrapped initial window),
then run the verification loop. -/
def ChainWorkProof.IsValidInternal {VS : Type} (CP : CwpPrims VS) (R : Rules)
    (ur : Nat → Nat → Nat) (cwp : ChainWorkProof) :
    Option (List SystemState × VS) :=
  match cwp.vStates with
  | [] => none
  | root :: rest =>
    if ¬ ((root :: rest).all fun s => s.IsSane && s.IsValidPoW CP R) then none
    else
      let vs0 := CP.verInit cwp.proofData (root.mHeight - HeightGenesis)
      let begin0 := Difficulty.Dec root.mDiffPacked root.mChainWork
      if begin0 ≥ root.mChainWork then none
      else cwpLoop CP ur rest root begin0 ⟨begin0, root.mChainWork, cwp.mLowerBound⟩ vs0 0

/-- Block::ChainWorkProof::IsValid: the internal run must succeed having
consumed exactly the state list and exactly the multi-proof hashes. -/
def ChainWorkProof.IsValid {VS : Type} (CP : CwpPrims VS) (R : Rules)
    (ur : Nat → Nat → Nat) (cwp : ChainWorkProof) : Bool :=
  match cwp.IsValidInternal CP R ur with
  | none => false
  | some (remaining, vs) =>
    remaining.isEmpty && decide (CP.verPos vs = cwp.proofData.length)

theorem isSane_height_pos (s : SystemState) (h : s.IsSane = true) :
    1 ≤ s.mHeight := by
  unfold SystemState.IsSane HeightGenesis at h
  by_contra hlt
  rw [if_pos (by omega)] at h
  exact absurd h (by simp)

/-- Strict decrease along one verified chain segment: if the loop consumes
every remaining state, consecutive states drop in height and chain-work. -/
theorem cwpLoop_chain {VS : Type} (CP : CwpPrims VS) (ur : Nat → Nat → Nat) :
    ∀ (states : List SystemState) (prev : SystemState) (dLoPrev : Nat)
      (samp : SamplerState) (vs : VS) (i : Nat) (vsf : VS),
    (∀ s ∈ states, s.mHeight < W64 ∧ s.IsSane = true) →
    1 ≤ prev.mHeight →
    dLoPrev < prev.mChainWork →
    cwpLoop CP ur states prev dLoPrev samp vs i = some ([], vsf) →
    (prev :: states).Chain'
      (fun a b => b.mHeight < a.mHeight ∧ b.mChainWork < a.mChainWork) := by
  intro states
  induction states with
  | nil =>
    intro prev dLoPrev samp vs i vsf _ _ _ _
    simp
  | cons s rest ih =>
    intro prev dLoPrev samp vs i vsf hbound hprevh hlt hrun
    rw [cwpLoop] at hrun
    rcases hsp : SamplePoint ur i samp with ⟨b, dSamp, samp'⟩
    rw [hsp] at hrun
    cases b
    · simp at hrun
    · dsimp only at hrun
      by_cases h1 : dSamp ≥ s.mChainWork
      · rw [if_pos h1] at hrun; cases hrun
      rw [if_neg h1] at hrun
      by_cases h2 : dSamp < Difficulty.Dec s.mDiffPacked s.mChainWork
      · rw [if_pos h2] at hrun; cases hrun
      rw [if_neg h2] at hrun
      have hdLo : Difficulty.Dec s.mDiffPacked s.mChainWork < s.mChainWork := by
        omega
      obtain ⟨hsW, hsSane⟩ := hbound s (List.mem_cons_self s rest)
      have hsh : 1 ≤ s.mHeight := isSane_height_pos s hsSane
      have hbound' : ∀ x ∈ rest, x.mHeight < W64 ∧ x.IsSane = true :=
        fun x hx => hbound x (List.mem_cons_of_mem s hx)
      by_cases hadj : (s.mHeight + 1) % W64 = prev.mHeight
      · rw [if_pos hadj] at hrun
        by_cases h3 : prev.mPrev ≠ CP.stateHash s
        · rw [if_pos h3] at hrun; cases hrun
        rw [if_neg h3] at hrun
        by_cases h4 : s.mChainWork ≠ dLoPrev
        · rw [if_pos h4] at hrun; cases hrun
        rw [if_neg h4] at hrun
        have hcw : s.mChainWork = dLoPrev := by omega
        have hhlt : s.mHeight < prev.mHeight := by
          by_cases hend : s.mHeight + 1 < W64
          · rw [Nat.mod_eq_of_lt hend] at hadj
            omega
          · have : s.mHeight + 1 = W64 := by omega
            rw [this, Nat.mod_self] at hadj
            omega
        exact List.Chain'.cons ⟨hhlt, by omega⟩
          (ih s (Difficulty.Dec s.mDiffPacked s.mChainWork) _ vs (i + 1) vsf
            hbound' hsh hdLo hrun)
      · rw [if_neg hadj] at hrun
        by_cases h5 : s.mHeight ≥ prev.mHeight
        · rw [if_pos h5] at hrun; cases hrun
        rw [if_neg h5] at hrun
        by_cases h6 : s.mChainWork ≥ dLoPrev
        · rw [if_pos h6] at hrun; cases hrun
        rw [if_neg h6] at hrun
        by_cases h7 : ¬ CP.verOk (CP.verProcess vs (CP.stateHash s)
            (s.mHeight - HeightGenesis))
        · rw [if_pos h7] at hrun; cases hrun
        rw [if_neg h7] at hrun
        exact List.Chain'.cons ⟨by omega, by omega⟩
          (ih s (Difficulty.Dec s.mDiffPacked s.mChainWork) _ _ (i + 1) vsf
            hbound' hsh hdLo hrun)

/-- C3: every chain-work proof accepted by `IsValid` is nonempty — its
first state is the claimed tip seeding the replayed sampler — and its
sampled states decrease strictly in both height and chain-work along the
list. -/
theorem chainWorkProof_strictly_decreasing {VS : Type} (CP : CwpPrims VS)
    (R : Rules) (ur : Nat → Nat → Nat) (cwp : ChainWorkProof)
    (hbound : ∀ s ∈ cwp.vStates, s.mHeight < W64)
    (hv : cwp.IsValid CP R ur = true) :
    cwp.vStates ≠ [] ∧
    cwp.vStates.Chain'
      (fun a b => b.mHeight < a.mHeight ∧ b.mChainWork < a.mChainWork) := by
  unfold ChainWorkProof.IsValid at hv
  rcases hint : cwp.IsValidInternal CP R ur with _ | ⟨remaining, vs⟩
  · rw [hint] at hv; cases hv
  rw [hint] at hv
  have hrem : remaining = [] := by
    rcases remaining with _ | ⟨x, xs⟩
    · rfl
    · simp [List.isEmpty] at hv
  subst hrem
  unfold ChainWorkProof.IsValidInternal at hint
  rcases hst : cwp.vStates with _ | ⟨root, rest⟩
  · rw [hst] at hint; cases hint
  rw [hst] at hint
  dsimp only at hint
  split at hint
  next hall => cases hint
  next hall =>
    split at hint
    next hover => cases hint
    next hover =>
      have hall' : ((root :: rest).all fun s => s.IsSane && s.IsValidPoW CP R) = true :=
        not_not.mp hall
      have hsane : ∀ s ∈ root :: rest, s.IsSane = true := by
        intro s hs
        have hone := List.all_eq_true.mp hall' s hs
        simp only [Bool.and_eq_true] at hone
        exact hone.1
      have hbound' : ∀ s ∈ rest, s.mHeight < W64 ∧ s.IsSane = true := by
        intro s hs
        refine ⟨?_, hsane s (List.mem_cons_of_mem root hs)⟩
        have := hbound s
        rw [hst] at this
        exact this (List.mem_cons_of_mem root hs)
      refine ⟨by simp, ?_⟩
      exact cwpLoop_chain CP ur rest root _ _ _ 0 vs hbound'
        (isSane_height_pos root (hsane root (List.mem_cons_self root rest)))
        (by omega) hint

/-- Trivial external operations accepted by the C3 witness proof. -/
def wCP : CwpPrims Unit :=
  ⟨fun _ => 0, fun _ => true, fun _ _ => (), fun vs _ _ => vs, fun _ => true,
    fun _ => 0⟩

/-- Rules with `FakePoW` for the C3 witness. -/
def wRules : Rules := ⟨0, 0, 0, false, true⟩

/-- A one-state chain-work proof (tip at height 5, chain-work `2^30`,
lower bound at the full chain-work so the sampler stops immediately). -/
def wCwp : ChainWorkProof := ⟨[⟨5, 0, 2 ^ 30, 0, 0, 0⟩], [], 2 ^ 30, 0⟩

/-- Witness for C3: the concrete proof `wCwp` is accepted and its state
list is strictly decreasing. -/
theorem chainWorkProof_strictly_decreasing_witness :
    wCwp.vStates ≠ [] ∧
    wCwp.vStates.Chain'
      (fun a b => b.mHeight < a.mHeight ∧ b.mChainWork < a.mChainWork) :=
  chainWorkProof_strictly_decreasing wCP wRules (fun _ _ => 0) wCwp
    (by decide) (by decide)

/-! ## Claim C2: sharded validation equals single-verifier validation

The embedding of `TxBase::Context::ValidateAndSummarize` follows the four
streaming loops of the source, threading the verifier round-robin counter
`iV` through all of them and the closing `G · offset` slot. -/

/-- Violation of the strict stream order: the previous element (when any)
compares strictly greater than the current one. -/
def prevGt {α : Type} (cmp : α → α → Int) (prev : Option α) (x : α) : Bool :=
  match prev with
  | some pv => decide (cmp pv x > 0)
  | none => false

/-- Nested-kernel restrictions of `Traverse`: the multiplier must equal
the parent's and the parent's height range must be contained in ours. -/
def nestedViolates (k : TxKernel) (parent : Option TxKernel) : Bool :=
  match parent with
  | some par =>
    decide (k.multiplier ≠ par.multiplier) || decide (k.hMin > par.hMin) ||
      decide (k.hMax < par.hMax)
  | none => false

/-- Transcript prefix absorbed by `Traverse` before the child walk: fee,
height bounds, the hash-lock flag, and the lock image (hash of the stored
preimage) when a lock is present. -/
def kernelBaseItems {Pt : Type} (P : Prims Pt) (f hn hx : Nat) (hl : Option Nat) :
    List HItem :=
  [.n f, .n hn, .n hx, .b hl.isSome] ++
  (match hl with
   | none => []
   | some pre => [.h (P.squeeze [.h pre])])

/-- TxKernel::HashToID: rehash the kernel hash with the excess and
multiplier; the reserved all-zero value is incremented. -/
def TxKernel.HashToID {Pt : Type} (P : Prims Pt) (k : TxKernel) (hv : Nat) : Nat :=
  let h2 := P.squeeze [.h hv, .h k.excess, .n k.multiplier]
  if h2 = 0 then 1 else h2

mutual

/-- TxKernel::Traverse in the instantiation used by `TxKernel::IsValid`
(`pFee` and `pExcess` present, `pLockImage` null): check the nested-kernel
restrictions against the parent, absorb fee, height bounds, the hash-lock
flag and image, walk the children, squeeze the kernel hash, then import
and scale the excess, verify the signature, and accumulate the excess and
fee.  Returns the kernel hash with the updated accumulators. -/
def TxKernel.Traverse {Pt : Type} [AddCommGroup Pt] (P : Prims Pt) :
    TxKernel → Option TxKernel → AmountBig → Pt → Option (Nat × AmountBig × Pt)
  | k@(.mk e m sg f hn hx hl nested), parent, fee, exc =>
    if nestedViolates k parent then none
    else
      match TxKernel.traverseNested P nested k none fee exc
          (kernelBaseItems P f hn hx hl) with
      | none => none
      | some (items, fee1, exc1) =>
        let hv := P.squeeze items
        match P.importPt e with
        | none => none
        | some pt0 =>
          let pt := if m ≠ 0 then (m + 1) • pt0 else pt0
          if ¬ P.sigValid sg hv pt then none
          else some (hv, fee1.addAmount f, exc1 + pt)

/-- Child walk of `Traverse`: a `false` boundary byte before each child,
strict ascending order of the children, recursive validation, the child ID
absorbed, and a `true` terminator. -/
def TxKernel.traverseNested {Pt : Type} [AddCommGroup Pt] (P : Prims Pt) :
    List TxKernel → TxKernel → Option TxKernel → AmountBig → Pt → List HItem →
    Option (List HItem × AmountBig × Pt)
  | [], _, _, fee, exc, items => some (items ++ [.b true], fee, exc)
  | v :: rest, par, prev, fee, exc, items =>
    if prevGt TxKernel.cmp prev v then none
    else
      match TxKernel.Traverse P v (some par) fee exc with
      | none => none
      | some (hvc, fee1, exc1) =>
        TxKernel.traverseNested P rest par (some v) fee1 exc1
          (items ++ [.b false, .h (TxKernel.HashToID P v hvc)])

end

/-- TxKernel::IsValid: traverse from the root with both accumulators. -/
def TxKernel.IsValid {Pt : Type} [AddCommGroup Pt] (P : Prims Pt) (k : TxKernel)
    (fee : AmountBig) (exc : Pt) : Option (AmountBig × Pt) :=
  (TxKernel.Traverse P k none fee exc).map fun r => (r.2.1, r.2.2)

/-- TxBase::Context::ShouldVerify: report whether this context verifies
the current slot and step the round-robin counter. -/
def shouldVerify (nVer iV : Nat) : Bool × Nat :=
  if iV ≠ 0 then (false, iV - 1) else (true, nVer - 1)

/-- TxBase::Context::HandleElementHeight: intersect with the permitted
window, fail when empty, and narrow the window outside block mode. -/
def HandleElementHeight (blockMode : Bool) (cur hr : HeightRange) :
    Option HeightRange :=
  let r := cur.Intersect hr
  if r.IsEmpty then none else some (if blockMode then cur else r)

/-- Input loop of `ValidateAndSummarize`: monotonicity check, the
commitment import and accumulation, gated by `ShouldVerify`. -/
def vasInputs {Pt : Type} [AddCommGroup Pt] (P : Prims Pt) (nVer : Nat) :
    List Input → Option Input → Pt → Nat → Bool → Option (Pt × Nat)
  | [], _, σ, iV, _ => some (σ, iV)
  | x :: rest, prev, σ, iV, ab =>
    if ab then none
    else
      let sv := shouldVerify nVer iV
      if sv.1 then
        if prevGt cmpCaM prev x then none
        else
          match P.importPt x.mCommitment with
          | none => none
          | some pt => vasInputs P nVer rest (some x) (σ + pt) sv.2 ab
      else vasInputs P nVer rest (some x) σ sv.2 ab

/-- Output-kernel cursor scan for one input kernel: advance until the
excesses match with a strictly greater multiplier; overrunning the excess
or a non-greater multiplier is fatal. -/
def matchOutKernel (kin : TxKernel) : List TxKernel → Option (List TxKernel)
  | [] => none
  | ko :: rest =>
    if ko.excess > kin.excess then none
    else if ko.excess = kin.excess then
      if ko.multiplier ≤ kin.multiplier then none else some rest
    else matchOutKernel kin rest

/-- Input-kernel loop of `ValidateAndSummarize`: the counterpart search
runs in every context regardless of sharding; ordering and validation are
gated by `ShouldVerify`.  The fee accumulator is the discarded dummy. -/
def vasKernelIns {Pt : Type} [AddCommGroup Pt] (P : Prims Pt) (nVer : Nat) :
    List TxKernel → List TxKernel → Option TxKernel → AmountBig → Pt → Nat → Bool →
    Option (List TxKernel × AmountBig × Pt × Nat)
  | [], kos, _, fd, σ, iV, _ => some (kos, fd, σ, iV)
  | x :: rest, kos, prev, fd, σ, iV, ab =>
    if ab then none
    else
      match matchOutKernel x kos with
      | none => none
      | some kos' =>
        let sv := shouldVerify nVer iV
        if sv.1 then
          if prevGt TxKernel.cmp prev x then none
          else
            match TxKernel.IsValid P x fd σ with
            | none => none
            | some (fd1, σ1) => vasKernelIns P nVer rest kos' (some x) fd1 σ1 sv.2 ab
        else vasKernelIns P nVer rest kos' (some x) fd σ sv.2 ab

/-- Output loop of `ValidateAndSummarize`: ordering, range-proof check,
commitment accumulation, and coinbase accounting (only in block mode). -/
def vasOutputs {Pt : Type} [AddCommGroup Pt] (P : Prims Pt) (R : Rules)
    (nVer : Nat) (blockMode : Bool) :
    List Output → Option Output → Pt → AmountBig → Nat → Bool →
    Option (Pt × AmountBig × Nat)
  | [], _, σ, cb, iV, _ => some (σ, cb, iV)
  | x :: rest, prev, σ, cb, iV, ab =>
    if ab then none
    else
      let sv := shouldVerify nVer iV
      if sv.1 then
        if prevGt Output.cmp prev x then none
        else
          match x.IsValid P R with
          | none => none
          | some pt =>
            if x.mCoinbase then
              if ¬ blockMode then none
              else
                let cb1 := match x.mpPublic with
                  | some pp => cb.addAmount pp.mValue
                  | none => cb
                vasOutputs P R nVer blockMode rest (some x) (σ + pt) cb1 sv.2 ab
            else vasOutputs P R nVer blockMode rest (some x) (σ + pt) cb sv.2 ab
      else vasOutputs P R nVer blockMode rest (some x) σ cb sv.2 ab

/-- Output-kernel loop of `ValidateAndSummarize`: ordering, kernel
validation with fee accumulation, and the height-window handling. -/
def vasKernelOuts {Pt : Type} [AddCommGroup Pt] (P : Prims Pt) (nVer : Nat)
    (blockMode : Bool) :
    List TxKernel → Option TxKernel → Pt → AmountBig → HeightRange → Nat → Bool →
    Option (Pt × AmountBig × HeightRange × Nat)
  | [], _, σ, fee, h, iV, _ => some (σ, fee, h, iV)
  | x :: rest, prev, σ, fee, h, iV, ab =>
    if ab then none
    else
      let sv := shouldVerify nVer iV
      if sv.1 then
        if prevGt TxKernel.cmp prev x then none
        else
          match TxKernel.IsValid P x fee σ with
          | none => none
          | some (fee1, σ1) =>
            match HandleElementHeight blockMode h x.height with
            | none => none
            | some h1 => vasKernelOuts P nVer blockMode rest (some x) σ1 fee1 h1 sv.2 ab
      else vasKernelOuts P nVer blockMode rest (some x) σ fee h sv.2 ab

/-- TxBase::Context::ValidateAndSummarize over an in-memory reader: the
empty-window guard, the sign-flip bracket around inputs and input-kernels,
the output loops, and the closing `G · offset` slot. -/
def ValidateAndSummarize {Pt : Type} [AddCommGroup Pt] (P : Prims Pt) (R : Rules)
    (ctx : Context Pt) (offset : Nat) (r : TxData) : Option (Context Pt) :=
  if ctx.mHeight.IsEmpty then none
  else
    match vasInputs P ctx.mNVerifiers r.vInputs none (-ctx.mSigma) ctx.mIVerifier
        ctx.mAbort with
    | none => none
    | some (σ1, iV1) =>
      match vasKernelIns P ctx.mNVerifiers r.vKernelsInput r.vKernelsOutput none
          ⟨0, 0⟩ σ1 iV1 ctx.mAbort with
      | none => none
      | some (_, _, σ2, iV2) =>
        match vasOutputs P R ctx.mNVerifiers ctx.mBlockMode r.vOutputs none (-σ2)
            ctx.mCoinbase iV2 ctx.mAbort with
        | none => none
        | some (σ3, cb3, iV3) =>
          match vasKernelOuts P ctx.mNVerifiers ctx.mBlockMode r.vKernelsOutput none
              σ3 ctx.mFee ctx.mHeight iV3 ctx.mAbort with
          | none => none
          | some (σ4, fee4, h4, iV4) =>
            let sv := shouldVerify ctx.mNVerifiers iV4
            let σ5 := if sv.1 then σ4 + offset • P.G else σ4
            some { ctx with mSigma := σ5, mFee := fee4, mCoinbase := cb3, mHeight := h4 }

/-- TxBase::Context::Merge: intersect the height windows through
`HandleElementHeight`, then sum `Σ` and add the fee and coinbase totals
(the source asserts equal block modes; the claim's setup guarantees it). -/
def Context.Merge {Pt : Type} [AddCommGroup Pt] (c x : Context Pt) :
    Option (Context Pt) :=
  match HandleElementHeight c.mBlockMode c.mHeight x.mHeight with
  | none => none
  | some h =>
    some { c with mHeight := h, mSigma := c.mSigma + x.mSigma,
                  mFee := c.mFee.addBig x.mFee,
                  mCoinbase := c.mCoinbase.addBig x.mCoinbase }

/-- Fold `Merge` over the remaining shard contexts. -/
def mergeList {Pt : Type} [AddCommGroup Pt] :
    Context Pt → List (Context Pt) → Option (Context Pt)
  | c, [] => some c
  | c, x :: xs =>
    match c.Merge x with
    | none => none
    | some c2 => mergeList c2 xs

/-- A fresh validation context (the `Reset` state with the given window,
mode and sharding assignment). -/
def baseCtx {Pt : Type} [AddCommGroup Pt] (hr : HeightRange) (bm : Bool)
    (n k : Nat) (ab : Bool) : Context Pt :=
  ⟨0, ⟨0, 0⟩, ⟨0, 0⟩, hr, bm, n, k, ab⟩

/-- Results of the `N` shard contexts, `verifier_index = 0 .. count-1`. -/
def shardResults {Pt : Type} [AddCommGroup Pt] (P : Prims Pt) (R : Rules)
    (hr : HeightRange) (bm : Bool) (ab : Bool) (offset : Nat) (r : TxData)
    (N : Nat) : Nat → Option (List (Context Pt))
  | 0 => some []
  | c + 1 =>
    match shardResults P R hr bm ab offset r N c,
          ValidateAndSummarize P R (baseCtx hr bm N c ab) offset r with
    | some l, some ctx => some (l ++ [ctx])
    | _, _ => none

/-- N-way sharded validation: run the `N` contexts over the same stream
and combine them with `Merge`. -/
def shardedRun {Pt : Type} [AddCommGroup Pt] (P : Prims Pt) (R : Rules)
    (hr : HeightRange) (bm : Bool) (ab : Bool) (offset : Nat) (r : TxData)
    (N : Nat) : Option (Context Pt) :=
  match shardResults P R hr bm ab offset r N N with
  | some (c :: cs) => mergeList c cs
  | _ => none

/-- Observable outcome of a validation context: commitment sum, fee and
coinbase totals, and the height window. -/
def ctxKey {Pt : Type} (c : Context Pt) : Pt × AmountBig × AmountBig × HeightRange :=
  (c.mSigma, c.mFee, c.mCoinbase, c.mHeight)

/-! ### Kernel traversal: accumulator shift

`Traverse` threads the fee and excess accumulators through the kernel
tree; the lemmas below show a run from arbitrary accumulators is the run
from zero with the fee chain replayed from the caller's value and the
excess shifted. -/

mutual

/-- Fees of a kernel tree in traversal order: children first, own last. -/
def TxKernel.treeFees : TxKernel → List Nat
  | .mk _ _ _ f _ _ _ nested => TxKernel.treeFeesList nested ++ [f]

/-- Concatenated tree fees of a kernel list. -/
def TxKernel.treeFeesList : List TxKernel → List Nat
  | [] => []
  | k :: ks => TxKernel.treeFees k ++ TxKernel.treeFeesList ks

end

theorem traverseNested_shift_of {Pt : Type} [AddCommGroup Pt] (P : Prims Pt)
    (l : List TxKernel) (par : TxKernel)
    (IH : ∀ v ∈ l, ∀ (parent : Option TxKernel) (fee : AmountBig) (exc : Pt),
      TxKernel.Traverse P v parent fee exc =
        (TxKernel.Traverse P v parent ⟨0, 0⟩ 0).map
          (fun r => (r.1, (TxKernel.treeFees v).foldl AmountBig.addAmount fee,
            exc + r.2.2))) :
    ∀ (prev : Option TxKernel) (fee : AmountBig) (exc : Pt) (items : List HItem),
    TxKernel.traverseNested P l par prev fee exc items =
      (TxKernel.traverseNested P l par prev ⟨0, 0⟩ 0 []).map
        (fun r => (items ++ r.1, (TxKernel.treeFeesList l).foldl AmountBig.addAmount fee,
          exc + r.2.2)) := by
  induction l with
  | nil =>
    intro prev fee exc items
    rw [TxKernel.traverseNested, TxKernel.traverseNested, TxKernel.treeFeesList]
    simp
  | cons v rest ihl =>
    intro prev fee exc items
    have IHv := IH v (List.mem_cons_self v rest)
    have IHrest : ∀ v2 ∈ rest, ∀ (parent : Option TxKernel) (fee : AmountBig) (exc : Pt),
        TxKernel.Traverse P v2 parent fee exc =
          (TxKernel.Traverse P v2 parent ⟨0, 0⟩ 0).map
            (fun r => (r.1, (TxKernel.treeFees v2).foldl AmountBig.addAmount fee,
              exc + r.2.2)) :=
      fun v2 hv2 => IH v2 (List.mem_cons_of_mem v hv2)
    rw [TxKernel.traverseNested, TxKernel.traverseNested]
    by_cases hpg : prevGt TxKernel.cmp prev v
    · simp [hpg]
    · simp only [hpg, if_false, Bool.false_eq_true]
      rw [IHv (some par) fee exc, IHv (some par) ⟨0, 0⟩ 0]
      rcases hc : TxKernel.Traverse P v (some par) ⟨0, 0⟩ 0 with _ | ⟨hvc, fvz, evz⟩
      · simp
      · simp only [Option.map_some', zero_add, List.nil_append]
        rw [ihl IHrest (some v) ((TxKernel.treeFees v).foldl AmountBig.addAmount fee)
            (exc + evz) (items ++ [HItem.b false, HItem.h (TxKernel.HashToID P v hvc)]),
          ihl IHrest (some v) ((TxKernel.treeFees v).foldl AmountBig.addAmount ⟨0, 0⟩)
            evz [HItem.b false, HItem.h (TxKernel.HashToID P v hvc)]]
        rcases hr : TxKernel.traverseNested P rest par (some v) ⟨0, 0⟩ 0 [] with
          _ | ⟨ritems, rfee, rexc⟩
        · simp
        · simp only [Option.map_some', Option.some.injEq, Prod.mk.injEq]
          refine ⟨?_, ?_, ?_⟩
          · simp [List.append_assoc]
          · rw [TxKernel.treeFeesList, List.foldl_append]
          · abel

theorem traverse_shift_aux {Pt : Type} [AddCommGroup Pt] (P : Prims Pt) :
    ∀ (n : Nat) (k : TxKernel), sizeOf k ≤ n →
    ∀ (parent : Option TxKernel) (fee : AmountBig) (exc : Pt),
    TxKernel.Traverse P k parent fee exc =
      (TxKernel.Traverse P k parent ⟨0, 0⟩ 0).map
        (fun r => (r.1, (TxKernel.treeFees k).foldl AmountBig.addAmount fee,
          exc + r.2.2)) := by
  intro n
  induction n with
  | zero =>
    intro k hk
    obtain ⟨e, m, sg, f, hn, hx, hl, nested⟩ := k
    simp [TxKernel.mk.sizeOf_spec] at hk
  | succ n ihn =>
    intro k hk parent fee exc
    obtain ⟨e, m, sg, f, hn, hx, hl, nested⟩ := k
    have IH : ∀ v ∈ nested, ∀ (parent : Option TxKernel) (fee : AmountBig) (exc : Pt),
        TxKernel.Traverse P v parent fee exc =
          (TxKernel.Traverse P v parent ⟨0, 0⟩ 0).map
            (fun r => (r.1, (TxKernel.treeFees v).foldl AmountBig.addAmount fee,
              exc + r.2.2)) := by
      intro v hv
      refine ihn v ?_
      have h1 := List.sizeOf_lt_of_mem hv
      simp [TxKernel.mk.sizeOf_spec] at hk
      omega
    rw [TxKernel.Traverse.eq_def, TxKernel.Traverse.eq_def]
    dsimp only
    by_cases hviol : nestedViolates (.mk e m sg f hn hx hl nested) parent
    · simp [hviol]
    · simp only [hviol, if_false, Bool.false_eq_true]
      rw [traverseNested_shift_of P nested _ IH none fee exc
          (kernelBaseItems P f hn hx hl),
        traverseNested_shift_of P nested _ IH none ⟨0, 0⟩ 0
          (kernelBaseItems P f hn hx hl)]
      rcases hnz : TxKernel.traverseNested P nested (.mk e m sg f hn hx hl nested)
          none ⟨0, 0⟩ 0 [] with _ | ⟨nitems, nfee, nexc⟩
      · simp
      · simp only [Option.map_some']
        rcases himp : P.importPt e with _ | pt0
        · simp
        · dsimp only
          have hfee : (List.foldl AmountBig.addAmount fee
                (TxKernel.treeFeesList nested)).addAmount f =
              List.foldl AmountBig.addAmount fee
                (TxKernel.treeFees (.mk e m sg f hn hx hl nested)) := by
            rw [TxKernel.treeFees, List.foldl_append]
            rfl
          split_ifs <;> simp [hfee, add_assoc]

/-- Accumulator shift for `Traverse`: a run from arbitrary accumulators is
the canonical run with the fee chain replayed and the excess shifted. -/
theorem traverse_shift {Pt : Type} [AddCommGroup Pt] (P : Prims Pt) (k : TxKernel)
    (parent : Option TxKernel) (fee : AmountBig) (exc : Pt) :
    TxKernel.Traverse P k parent fee exc =
      (TxKernel.Traverse P k parent ⟨0, 0⟩ 0).map
        (fun r => (r.1, (TxKernel.treeFees k).foldl AmountBig.addAmount fee,
          exc + r.2.2)) :=
  traverse_shift_aux P (sizeOf k) k (Nat.le_refl _) parent fee exc

/-- Accumulator shift for `TxKernel::IsValid`. -/
theorem isValid_shift {Pt : Type} [AddCommGroup Pt] (P : Prims Pt) (k : TxKernel)
    (fee : AmountBig) (exc : Pt) :
    TxKernel.IsValid P k fee exc =
      (TxKernel.IsValid P k ⟨0, 0⟩ 0).map
        (fun r => ((TxKernel.treeFees k).foldl AmountBig.addAmount fee, exc + r.2)) := by
  unfold TxKernel.IsValid
  rw [traverse_shift]
  rcases TxKernel.Traverse P k none ⟨0, 0⟩ 0 with _ | r <;> simp

/-- Canonical verdict of `TxKernel::IsValid` (zero accumulators). -/
def kernelOk {Pt : Type} [AddCommGroup Pt] (P : Prims Pt) (k : TxKernel) : Bool :=
  (TxKernel.IsValid P k ⟨0, 0⟩ 0).isSome

/-- Canonical excess contribution of a kernel (zero when invalid). -/
def kernelExc {Pt : Type} [AddCommGroup Pt] (P : Prims Pt) (k : TxKernel) : Pt :=
  match TxKernel.IsValid P k ⟨0, 0⟩ 0 with
  | some r => r.2
  | none => 0

/-- Closed form of `TxKernel::IsValid` from arbitrary accumulators. -/
theorem isValid_eq {Pt : Type} [AddCommGroup Pt] (P : Prims Pt) (k : TxKernel)
    (fee : AmountBig) (exc : Pt) :
    TxKernel.IsValid P k fee exc =
      if kernelOk P k then
        some ((TxKernel.treeFees k).foldl AmountBig.addAmount fee, exc + kernelExc P k)
      else none := by
  rw [isValid_shift]
  unfold kernelOk kernelExc
  rcases TxKernel.IsValid P k ⟨0, 0⟩ 0 with _ | r <;> simp

/-! ### AmountBig arithmetic at the value level -/

theorem AmountBig.val_lt (a : AmountBig) (ha : a.Wf) : a.val < W128 := by
  obtain ⟨hl, hh⟩ := ha
  unfold AmountBig.val W64 W128 at *
  omega

theorem addAmount_val (a : AmountBig) (x : Nat) (ha : a.Wf) (hx : x < W64) :
    (a.addAmount x).Wf ∧ (a.addAmount x).val = (a.val + x) % W128 := by
  obtain ⟨hl, hh⟩ := ha
  unfold AmountBig.addAmount AmountBig.val AmountBig.Wf W64 W128 at *
  dsimp only
  refine ⟨⟨?_, ?_⟩, ?_⟩ <;> (try split_ifs) <;> omega

theorem addBig_val (a b : AmountBig) (ha : a.Wf) (hb : b.Wf) :
    (a.addBig b).Wf ∧ (a.addBig b).val = (a.val + b.val) % W128 := by
  obtain ⟨hal, hah⟩ := ha
  obtain ⟨hbl, hbh⟩ := hb
  unfold AmountBig.addBig AmountBig.addAmount AmountBig.val AmountBig.Wf W64 W128 at *
  dsimp only
  refine ⟨⟨?_, ?_⟩, ?_⟩ <;> (try split_ifs) <;> omega

theorem foldl_addAmount_val :
    ∀ (xs : List Nat) (a : AmountBig), a.Wf → (∀ x ∈ xs, x < W64) →
    (xs.foldl AmountBig.addAmount a).Wf ∧
    (xs.foldl AmountBig.addAmount a).val = (a.val + xs.sum) % W128 := by
  intro xs
  induction xs with
  | nil =>
    intro a ha _
    refine ⟨ha, ?_⟩
    simpa using (Nat.mod_eq_of_lt (AmountBig.val_lt a ha)).symm
  | cons x rest ih =>
    intro a ha hx
    have h1 := addAmount_val a x ha (hx x (List.mem_cons_self x rest))
    have h2 := ih (a.addAmount x) h1.1 (fun y hy => hx y (List.mem_cons_of_mem x hy))
    refine ⟨h2.1, ?_⟩
    rw [List.foldl_cons] at *
    rw [h2.2, h1.2, Nat.mod_add_mod, List.sum_cons]
    ring_nf

/-- Two well-formed aggregates with equal value are equal. -/
theorem AmountBig.val_inj (a b : AmountBig) (ha : a.Wf) (hb : b.Wf)
    (h : a.val = b.val) : a = b := by
  obtain ⟨al, ah⟩ := a
  obtain ⟨bl, bh⟩ := b
  obtain ⟨hal, hah⟩ := ha
  obtain ⟨hbl, hbh⟩ := hb
  unfold AmountBig.val W64 at *
  dsimp only at *
  have h1 : al = bl ∧ ah = bh := by omega
  simp [h1.1, h1.2]

/-! ### Slot ownership machinery

Every `ShouldVerify` call consumes one global slot; a context with
verifiers `N` and index `k` verifies exactly the slots whose global
position is congruent to `k` modulo `N`.  Streams are annotated with
positions and predecessors, and each loop's effect is a fold over the
owned sublist. -/

/-- Annotate a stream with global positions (from `p`) and predecessors. -/
def annot {α : Type} (p : Nat) (prev : Option α) : List α → List (Nat × Option α × α)
  | [] => []
  | x :: rest => (p, prev, x) :: annot (p + 1) (some x) rest

/-- Round-robin counter held by a context after one slot. -/
def ivNext (N iv : Nat) : Nat :=
  if iv = 0 then N - 1 else iv - 1

/-- Round-robin counter held by a context after `len` slots. -/
def ivSteps (N : Nat) : Nat → Nat → Nat
  | iv, 0 => iv
  | iv, len + 1 => ivSteps N (ivNext N iv) len

theorem mod_small_add (N a b : Nat) (ha : a < N) (hb : b < N) :
    (a + b) % N = if a + b < N then a + b else a + b - N := by
  split_ifs with h
  · exact Nat.mod_eq_of_lt h
  · rw [Nat.mod_eq_sub_mod (by omega)]
    exact Nat.mod_eq_of_lt (by omega)

theorem ivNext_lt (N iv : Nat) (hN : 0 < N) (h : iv < N) : ivNext N iv < N := by
  unfold ivNext
  split <;> omega

theorem ivNext_inv (N iv p k : Nat) (hN : 0 < N) (hiv : iv < N)
    (h : (iv + p) % N = k) : (ivNext N iv + (p + 1)) % N = k := by
  unfold ivNext
  by_cases h0 : iv = 0
  · subst h0
    rw [if_pos rfl]
    have h1 : N - 1 + (p + 1) = p + N := by omega
    rw [h1, Nat.add_mod_right]
    simpa using h
  · rw [if_neg h0]
    have h1 : iv - 1 + (p + 1) = iv + p := by omega
    rw [h1]
    exact h

theorem iv_owned_iff (N iv p k : Nat) (hN : 0 < N) (hiv : iv < N)
    (h : (iv + p) % N = k) : iv = 0 ↔ p % N = k := by
  have hq : p % N < N := Nat.mod_lt _ hN
  rw [Nat.add_mod, Nat.mod_eq_of_lt hiv,
    mod_small_add N iv (p % N) hiv hq] at h
  split at h <;> omega

theorem filter_mod_partition_sum {β M : Type} [AddCommMonoid M] (N : Nat)
    (hN : 0 < N) (key : β → Nat) (g : β → M) :
    ∀ (B : List β),
    (Finset.range N).sum
        (fun k => ((B.filter (fun b => key b % N = k)).map g).sum) =
      (B.map g).sum := by
  intro B
  induction B with
  | nil => simp
  | cons b B ih =>
    have hsplit : ∀ k,
        (((b :: B).filter (fun x => key x % N = k)).map g).sum =
          (if key b % N = k then g b else 0) +
            ((B.filter (fun x => key x % N = k)).map g).sum := by
      intro k
      by_cases hk : key b % N = k
      · simp [List.filter_cons, hk]
      · simp [List.filter_cons, hk]
    rw [Finset.sum_congr rfl (fun k _ => hsplit k), Finset.sum_add_distrib,
      Finset.sum_ite_eq (Finset.range N) (key b % N) (fun _ => g b)]
    simp [Finset.mem_range.mpr (Nat.mod_lt _ hN), ih]

theorem filter_mod_partition_all {β : Type} (N : Nat) (hN : 0 < N)
    (key : β → Nat) (p : β → Bool) (B : List β) :
    (∀ k, k < N → ((B.filter (fun b => key b % N = k)).all p) = true) ↔
      B.all p = true := by
  constructor
  · intro h
    rw [List.all_eq_true]
    intro b hb
    have hk := h (key b % N) (Nat.mod_lt _ hN)
    rw [List.all_eq_true] at hk
    exact hk b (List.mem_filter.mpr ⟨hb, by simp⟩)
  · intro h k _
    rw [List.all_eq_true] at h ⊢
    intro b hb
    exact h b (List.mem_filter.mp hb).1

theorem mem_filter_mod {β : Type} (N : Nat) (hN : 0 < N) (key : β → Nat)
    (B : List β) (b : β) :
    b ∈ B ↔ ∃ k, k < N ∧ b ∈ B.filter (fun x => key x % N = k) := by
  constructor
  · intro hb
    exact ⟨key b % N, Nat.mod_lt _ hN, List.mem_filter.mpr ⟨hb, by simp⟩⟩
  · rintro ⟨k, _, hmem⟩
    exact (List.mem_filter.mp hmem).1

/-! ### HeightRange intersection folds -/

/-- Running intersection of the permitted window with a kernel list. -/
def interFold (h : HeightRange) (ks : List TxKernel) : HeightRange :=
  ks.foldl (fun a x => a.Intersect x.height) h

theorem interFold_min : ∀ (ks : List TxKernel) (h : HeightRange),
    (interFold h ks).mMin = (ks.map TxKernel.hMin).foldl max h.mMin := by
  intro ks
  induction ks with
  | nil => intro h; rfl
  | cons x rest ih =>
    intro h
    show (interFold (h.Intersect x.height) rest).mMin = _
    rw [ih]
    rfl

theorem interFold_max : ∀ (ks : List TxKernel) (h : HeightRange),
    (interFold h ks).mMax = (ks.map TxKernel.hMax).foldl min h.mMax := by
  intro ks
  induction ks with
  | nil => intro h; rfl
  | cons x rest ih =>
    intro h
    show (interFold (h.Intersect x.height) rest).mMax = _
    rw [ih]
    rfl

theorem foldl_max_le_iff : ∀ (l : List Nat) (b c : Nat),
    l.foldl max b ≤ c ↔ b ≤ c ∧ ∀ x ∈ l, x ≤ c := by
  intro l
  induction l with
  | nil => intro b c; simp
  | cons x rest ih =>
    intro b c
    rw [List.foldl_cons, ih]
    simp only [List.mem_cons]
    constructor
    · rintro ⟨h1, h2⟩
      exact ⟨by omega, fun y hy => by rcases hy with rfl | hy
                                      · omega
                                      · exact h2 y hy⟩
    · rintro ⟨h1, h2⟩
      refine ⟨by have := h2 x (Or.inl rfl); omega, fun y hy => h2 y (Or.inr hy)⟩

theorem le_foldl_min_iff : ∀ (l : List Nat) (b c : Nat),
    c ≤ l.foldl min b ↔ c ≤ b ∧ ∀ x ∈ l, c ≤ x := by
  intro l
  induction l with
  | nil => intro b c; simp
  | cons x rest ih =>
    intro b c
    rw [List.foldl_cons, ih]
    simp only [List.mem_cons]
    constructor
    · rintro ⟨h1, h2⟩
      exact ⟨by omega, fun y hy => by rcases hy with rfl | hy
                                      · omega
                                      · exact h2 y hy⟩
    · rintro ⟨h1, h2⟩
      refine ⟨by have := h2 x (Or.inl rfl); omega, fun y hy => h2 y (Or.inr hy)⟩

/-- Equality of max-folds whose element sets and bases agree. -/
theorem foldl_max_eq_of_mem_iff (l1 l2 : List Nat) (b : Nat)
    (h : ∀ x, x ∈ l1 ↔ x ∈ l2) : l1.foldl max b = l2.foldl max b := by
  have hb1 := (foldl_max_le_iff l1 b (l1.foldl max b)).mp (le_refl _)
  have hb2 := (foldl_max_le_iff l2 b (l2.foldl max b)).mp (le_refl _)
  have h1 : l1.foldl max b ≤ l2.foldl max b := by
    rw [foldl_max_le_iff]
    exact ⟨hb2.1, fun x hx => hb2.2 x ((h x).mp hx)⟩
  have h2 : l2.foldl max b ≤ l1.foldl max b := by
    rw [foldl_max_le_iff]
    exact ⟨hb1.1, fun x hx => hb1.2 x ((h x).mpr hx)⟩
  omega

/-- Equality of min-folds whose element sets and bases agree. -/
theorem foldl_min_eq_of_mem_iff (l1 l2 : List Nat) (b : Nat)
    (h : ∀ x, x ∈ l1 ↔ x ∈ l2) : l1.foldl min b = l2.foldl min b := by
  have hb1 := (le_foldl_min_iff l1 b (l1.foldl min b)).mp (le_refl _)
  have hb2 := (le_foldl_min_iff l2 b (l2.foldl min b)).mp (le_refl _)
  have h1 : l2.foldl min b ≤ l1.foldl min b := by
    rw [le_foldl_min_iff]
    exact ⟨hb2.1, fun x hx => hb2.2 x ((h x).mp hx)⟩
  have h2 : l1.foldl min b ≤ l2.foldl min b := by
    rw [le_foldl_min_iff]
    exact ⟨hb1.1, fun x hx => hb1.2 x ((h x).mpr hx)⟩
  omega

/-! ### Closed forms of the four validator loops -/

/-- Per-slot check of the input loop: stream order and importability. -/
def inpCheck {Pt : Type} (P : Prims Pt) (t : Nat × Option Input × Input) : Bool :=
  !prevGt cmpCaM t.2.1 t.2.2 && (P.importPt t.2.2.mCommitment).isSome

/-- Per-slot Σ contribution of the input loop. -/
def inpDelta {Pt : Type} [AddCommGroup Pt] (P : Prims Pt)
    (t : Nat × Option Input × Input) : Pt :=
  match P.importPt t.2.2.mCommitment with
  | some pt => pt
  | none => 0

theorem vasInputs_run {Pt : Type} [AddCommGroup Pt] (P : Prims Pt) (N k : Nat)
    (hN : 0 < N) (hk : k < N) :
    ∀ (l : List Input) (p : Nat) (prev : Option Input) (σ : Pt) (iv : Nat) (ab : Bool),
    iv < N → (iv + p) % N = k →
    vasInputs P N l prev σ iv ab =
      (if ab = true ∧ l ≠ [] then none
      else if ((annot p prev l).filter (fun t => t.1 % N = k)).all (inpCheck P) then
        some (σ + (((annot p prev l).filter (fun t => t.1 % N = k)).map
          (inpDelta P)).sum, ivSteps N iv l.length)
      else none) := by
  intro l
  induction l with
  | nil =>
    intro p prev σ iv ab hiv hmod
    simp [vasInputs, annot, ivSteps]
  | cons x rest ih =>
    intro p prev σ iv ab hiv hmod
    rw [vasInputs]
    cases ab with
    | true => simp
    | false =>
      simp only [if_neg (by simp : ¬ (false = true)), Bool.false_eq_true,
        if_false, ne_eq, false_and]
      have hknext : (ivNext N iv + (p + 1)) % N = k := ivNext_inv N iv p k hN hiv hmod
      have hnlt : ivNext N iv < N := ivNext_lt N iv hN hiv
      have hsteps : ivSteps N iv (x :: rest).length =
          ivSteps N (ivNext N iv) rest.length := rfl
      by_cases hiv0 : iv = 0
      · subst hiv0
        have hpk : p % N = k := (iv_owned_iff N 0 p k hN hN hmod).mp rfl
        have hsv : shouldVerify N 0 = (true, N - 1) := by
          simp [shouldVerify]
        rw [hsv]
        dsimp only
        try simp only [reduceIte]
        have hannot : (annot p prev (x :: rest)).filter (fun t => t.1 % N = k) =
            (p, prev, x) :: ((annot (p + 1) (some x) rest).filter
              (fun t => t.1 % N = k)) := by
          simp [annot, List.filter_cons, hpk]
        rw [hannot]
        by_cases hpg : prevGt cmpCaM prev x
        · rw [if_pos hpg]
          have hchk : inpCheck P (p, prev, x) = false := by
            simp [inpCheck, hpg]
          simp [List.all_cons, hchk]
        · rw [if_neg hpg]
          rcases himp : P.importPt x.mCommitment with _ | pt
          · have hchk : inpCheck P (p, prev, x) = false := by
              simp [inpCheck, himp]
            simp [List.all_cons, hchk]
          · have hchk : inpCheck P (p, prev, x) = true := by
              simp [inpCheck, hpg, himp]
            have hivn : ivNext N 0 = N - 1 := rfl
            dsimp only
            rw [ih (p + 1) (some x) (σ + pt) (N - 1) false
              (hivn ▸ hnlt) (hivn ▸ hknext)]
            simp only [Bool.false_eq_true, false_and, if_neg (by simp : ¬ False),
              List.all_cons, hchk, Bool.true_and, List.map_cons, List.sum_cons]
            have hdelta : inpDelta P (p, prev, x) = pt := by
              simp [inpDelta, himp]
            rw [hdelta, hsteps]
            by_cases hall : ((annot (p + 1) (some x) rest).filter
                (fun t => t.1 % N = k)).all (inpCheck P) = true
            · rw [if_pos hall, if_pos hall]
              rw [add_assoc]
              rfl
            · rw [if_neg hall, if_neg hall]
      · have hpk : ¬ (p % N = k) := by
          intro hc
          exact hiv0 ((iv_owned_iff N iv p k hN hiv hmod).mpr hc)
        have hsv : shouldVerify N iv = (false, iv - 1) := by
          simp [shouldVerify, hiv0]
        rw [hsv]
        dsimp only
        try simp only [reduceIte]
        have hannot : (annot p prev (x :: rest)).filter (fun t => t.1 % N = k) =
            (annot (p + 1) (some x) rest).filter (fun t => t.1 % N = k) := by
          simp [annot, List.filter_cons, hpk]
        have hivn : ivNext N iv = iv - 1 := by
          simp [ivNext, hiv0]
        rw [ih (p + 1) (some x) σ (iv - 1) false (hivn ▸ hnlt) (hivn ▸ hknext),
          hannot, hsteps, hivn]
        simp

/-- Global counterpart scan: the output-kernel cursor evolution over the
whole input-kernel list (identical in every context). -/
def matchScan : List TxKernel → List TxKernel → Option (List TxKernel)
  | [], kos => some kos
  | kin :: rest, kos =>
    match matchOutKernel kin kos with
    | none => none
    | some kos' => matchScan rest kos'

/-- Per-slot check of the input-kernel loop. -/
def kinCheck {Pt : Type} [AddCommGroup Pt] (P : Prims Pt)
    (t : Nat × Option TxKernel × TxKernel) : Bool :=
  !prevGt TxKernel.cmp t.2.1 t.2.2 && kernelOk P t.2.2

/-- Per-slot Σ contribution of a kernel slot. -/
def kinDelta {Pt : Type} [AddCommGroup Pt] (P : Prims Pt)
    (t : Nat × Option TxKernel × TxKernel) : Pt :=
  kernelExc P t.2.2

theorem vasKernelIns_run {Pt : Type} [AddCommGroup Pt] (P : Prims Pt) (N k : Nat)
    (hN : 0 < N) (hk : k < N) :
    ∀ (l : List TxKernel) (kos : List TxKernel) (p : Nat) (prev : Option TxKernel)
      (fd : AmountBig) (σ : Pt) (iv : Nat) (ab : Bool),
    iv < N → (iv + p) % N = k →
    (vasKernelIns P N l kos prev fd σ iv ab).map (fun r => (r.1, r.2.2)) =
      (if ab = true ∧ l.isEmpty = false then none
      else match matchScan l kos with
        | none => none
        | some kosf =>
          if ((annot p prev l).filter (fun t => t.1 % N = k)).all (kinCheck P) then
            some (kosf, σ + (((annot p prev l).filter (fun t => t.1 % N = k)).map
              (kinDelta P)).sum, ivSteps N iv l.length)
          else none) := by
  intro l
  induction l with
  | nil =>
    intro kos p prev fd σ iv ab hiv hmod
    simp [vasKernelIns, matchScan, annot, ivSteps]
  | cons x rest ih =>
    intro kos p prev fd σ iv ab hiv hmod
    rw [vasKernelIns]
    cases ab with
    | true => simp
    | false =>
      simp only [if_neg (by simp : ¬ (false = true)), Bool.false_eq_true,
        if_false, ne_eq, false_and]
      have hknext : (ivNext N iv + (p + 1)) % N = k := ivNext_inv N iv p k hN hiv hmod
      have hnlt : ivNext N iv < N := ivNext_lt N iv hN hiv
      have hsteps : ivSteps N iv (x :: rest).length =
          ivSteps N (ivNext N iv) rest.length := rfl
      rw [matchScan]
      rcases hm : matchOutKernel x kos with _ | kos'
      · simp
      · dsimp only
        by_cases hiv0 : iv = 0
        · subst hiv0
          have hpk : p % N = k := (iv_owned_iff N 0 p k hN hN hmod).mp rfl
          have hsv : shouldVerify N 0 = (true, N - 1) := by
            simp [shouldVerify]
          rw [hsv]
          dsimp only
          try simp only [reduceIte]
          have hannot : (annot p prev (x :: rest)).filter (fun t => t.1 % N = k) =
              (p, prev, x) :: ((annot (p + 1) (some x) rest).filter
                (fun t => t.1 % N = k)) := by
            simp [annot, List.filter_cons, hpk]
          rw [hannot]
          by_cases hpg : prevGt TxKernel.cmp prev x
          · rw [if_pos hpg]
            have hchk : kinCheck P (p, prev, x) = false := by
              simp [kinCheck, hpg]
            simp only [List.all_cons, hchk, Bool.false_and, Bool.false_eq_true,
              if_false]
            cases matchScan rest kos' <;> rfl
          · rw [if_neg hpg]
            rw [isValid_eq]
            by_cases hko : kernelOk P x
            · rw [if_pos hko]
              dsimp only
              have hivn : ivNext N 0 = N - 1 := rfl
              rw [ih kos' (p + 1) (some x)
                ((TxKernel.treeFees x).foldl AmountBig.addAmount fd)
                (σ + kernelExc P x) (N - 1) false (hivn ▸ hnlt) (hivn ▸ hknext)]
              have hchk : kinCheck P (p, prev, x) = true := by
                simp [kinCheck, hpg, hko]
              simp only [Bool.false_eq_true, false_and,
                if_neg (by simp : ¬ False), List.all_cons, hchk, Bool.true_and,
                List.map_cons, List.sum_cons]
              rw [hsteps]
              rcases hms : matchScan rest kos' with _ | kosf
              · rfl
              · dsimp only
                by_cases hall : ((annot (p + 1) (some x) rest).filter
                    (fun t => t.1 % N = k)).all (kinCheck P) = true
                · rw [if_pos hall, if_pos hall]
                  have hkd : kinDelta P (p, prev, x) = kernelExc P x := rfl
                  rw [hkd, add_assoc]
                  rfl
                · rw [if_neg hall, if_neg hall]
            · rw [if_neg hko]
              have hchk : kinCheck P (p, prev, x) = false := by
                simp [kinCheck, hko]
              simp only [List.all_cons, hchk, Bool.false_and, Bool.false_eq_true,
                if_false]
              cases matchScan rest kos' <;> rfl
        · have hpk : ¬ (p % N = k) := by
            intro hc
            exact hiv0 ((iv_owned_iff N iv p k hN hiv hmod).mpr hc)
          have hsv : shouldVerify N iv = (false, iv - 1) := by
            simp [shouldVerify, hiv0]
          rw [hsv]
          dsimp only
          try simp only [reduceIte]
          have hannot : (annot p prev (x :: rest)).filter (fun t => t.1 % N = k) =
              (annot (p + 1) (some x) rest).filter (fun t => t.1 % N = k) := by
            simp [annot, List.filter_cons, hpk]
          have hivn : ivNext N iv = iv - 1 := by
            simp [ivNext, hiv0]
          simp only [Bool.false_eq_true, if_false]
          rw [ih kos' (p + 1) (some x) fd σ (iv - 1) false (hivn ▸ hnlt)
            (hivn ▸ hknext), hannot, hsteps, hivn]
          simp

/-- Per-slot check of the output loop: order, range proof, and coinbase
only in block mode. -/
def outCheck {Pt : Type} [AddCommGroup Pt] (P : Prims Pt) (R : Rules) (bm : Bool)
    (t : Nat × Option Output × Output) : Bool :=
  !prevGt Output.cmp t.2.1 t.2.2 && (t.2.2.IsValid P R).isSome &&
    (!t.2.2.mCoinbase || bm)

/-- Per-slot Σ contribution of the output loop. -/
def outDelta {Pt : Type} [AddCommGroup Pt] (P : Prims Pt) (R : Rules)
    (t : Nat × Option Output × Output) : Pt :=
  match t.2.2.IsValid P R with
  | some pt => pt
  | none => 0

/-- Per-slot coinbase amounts of the output loop. -/
def outCb (t : Nat × Option Output × Output) : List Nat :=
  if t.2.2.mCoinbase then
    match t.2.2.mpPublic with
    | some pp => [pp.mValue]
    | none => []
  else []

theorem vasOutputs_run {Pt : Type} [AddCommGroup Pt] (P : Prims Pt) (R : Rules)
    (N k : Nat) (hN : 0 < N) (hk : k < N) (bm : Bool) :
    ∀ (l : List Output) (p : Nat) (prev : Option Output) (σ : Pt) (cb : AmountBig)
      (iv : Nat) (ab : Bool),
    iv < N → (iv + p) % N = k →
    vasOutputs P R N bm l prev σ cb iv ab =
      (if ab = true ∧ l.isEmpty = false then none
      else if ((annot p prev l).filter (fun t => t.1 % N = k)).all (outCheck P R bm) then
        some (σ + (((annot p prev l).filter (fun t => t.1 % N = k)).map
            (outDelta P R)).sum,
          (((annot p prev l).filter (fun t => t.1 % N = k)).flatMap outCb).foldl
            AmountBig.addAmount cb,
          ivSteps N iv l.length)
      else none) := by
  intro l
  induction l with
  | nil =>
    intro p prev σ cb iv ab hiv hmod
    simp [vasOutputs, annot, ivSteps]
  | cons x rest ih =>
    intro p prev σ cb iv ab hiv hmod
    rw [vasOutputs]
    cases ab with
    | true => simp
    | false =>
      simp only [if_neg (by simp : ¬ (false = true)), Bool.false_eq_true,
        if_false, List.isEmpty_cons, false_and]
      have hknext : (ivNext N iv + (p + 1)) % N = k := ivNext_inv N iv p k hN hiv hmod
      have hnlt : ivNext N iv < N := ivNext_lt N iv hN hiv
      have hsteps : ivSteps N iv (x :: rest).length =
          ivSteps N (ivNext N iv) rest.length := rfl
      by_cases hiv0 : iv = 0
      · subst hiv0
        have hpk : p % N = k := (iv_owned_iff N 0 p k hN hN hmod).mp rfl
        have hsv : shouldVerify N 0 = (true, N - 1) := by
          simp [shouldVerify]
        rw [hsv]
        dsimp only
        try simp only [reduceIte]
        have hannot : (annot p prev (x :: rest)).filter (fun t => t.1 % N = k) =
            (p, prev, x) :: ((annot (p + 1) (some x) rest).filter
              (fun t => t.1 % N = k)) := by
          simp [annot, List.filter_cons, hpk]
        rw [hannot]
        have hivn : ivNext N 0 = N - 1 := rfl
        by_cases hpg : prevGt Output.cmp prev x
        · rw [if_pos hpg]
          have hchk : outCheck P R bm (p, prev, x) = false := by
            simp [outCheck, hpg]
          simp [List.all_cons, hchk]
        · rw [if_neg hpg]
          rcases hov : x.IsValid P R with _ | pt
          · have hchk : outCheck P R bm (p, prev, x) = false := by
              simp [outCheck, hov]
            simp [List.all_cons, hchk]
          · dsimp only
            by_cases hcbx : x.mCoinbase
            · rw [if_pos hcbx]
              by_cases hbm : bm = true
              · subst hbm
                rw [if_neg (by simp : ¬ ¬ true = true)]
                rw [ih (p + 1) (some x) (σ + pt)
                  (match x.mpPublic with
                   | some pp => cb.addAmount pp.mValue
                   | none => cb) (N - 1) false (hivn ▸ hnlt) (hivn ▸ hknext)]
                have hchk : outCheck P R true (p, prev, x) = true := by
                  simp [outCheck, hpg, hov]
                simp only [Bool.false_eq_true, false_and,
                  if_neg (by simp : ¬ False), List.all_cons, hchk, Bool.true_and,
                  List.map_cons, List.sum_cons, List.flatMap_cons]
                have hdel : outDelta P R (p, prev, x) = pt := by
                  simp [outDelta, hov]
                have hcbl : outCb (p, prev, x) =
                    (match x.mpPublic with
                     | some pp => [pp.mValue]
                     | none => []) := by
                  simp [outCb, hcbx]
                rw [hdel, hcbl, hsteps]
                by_cases hall : ((annot (p + 1) (some x) rest).filter
                    (fun t => t.1 % N = k)).all (outCheck P R true) = true
                · rw [if_pos hall, if_pos hall, add_assoc, List.foldl_append]
                  rcases x.mpPublic with _ | pp <;> rfl
                · rw [if_neg hall, if_neg hall]
              · have hbm' : bm = false := by
                  cases bm
                  · rfl
                  · exact absurd rfl hbm
                subst hbm'
                rw [if_pos (by simp : ¬ false = true)]
                have hchk : outCheck P R false (p, prev, x) = false := by
                  simp [outCheck, hcbx]
                simp [List.all_cons, hchk]
            · rw [if_neg hcbx]
              rw [ih (p + 1) (some x) (σ + pt) cb (N - 1) false
                (hivn ▸ hnlt) (hivn ▸ hknext)]
              have hchk : outCheck P R bm (p, prev, x) = true := by
                simp [outCheck, hpg, hov, hcbx]
              simp only [Bool.false_eq_true, false_and,
                if_neg (by simp : ¬ False), List.all_cons, hchk, Bool.true_and,
                List.map_cons, List.sum_cons, List.flatMap_cons]
              have hdel : outDelta P R (p, prev, x) = pt := by
                simp [outDelta, hov]
              have hcbl : outCb (p, prev, x) = [] := by
                simp [outCb, hcbx]
              rw [hdel, hcbl, hsteps]
              by_cases hall : ((annot (p + 1) (some x) rest).filter
                  (fun t => t.1 % N = k)).all (outCheck P R bm) = true
              · rw [if_pos hall, if_pos hall, add_assoc]
                rfl
              · rw [if_neg hall, if_neg hall]
      · have hpk : ¬ (p % N = k) := by
          intro hc
          exact hiv0 ((iv_owned_iff N iv p k hN hiv hmod).mpr hc)
        have hsv : shouldVerify N iv = (false, iv - 1) := by
          simp [shouldVerify, hiv0]
        rw [hsv]
        dsimp only
        have hannot : (annot p prev (x :: rest)).filter (fun t => t.1 % N = k) =
            (annot (p + 1) (some x) rest).filter (fun t => t.1 % N = k) := by
          simp [annot, List.filter_cons, hpk]
        have hivn : ivNext N iv = iv - 1 := by
          simp [ivNext, hiv0]
        simp only [Bool.false_eq_true, if_false]
        rw [ih (p + 1) (some x) σ cb (iv - 1) false (hivn ▸ hnlt)
          (hivn ▸ hknext), hannot, hsteps, hivn]
        simp

/-- Per-slot check of the output-kernel loop (order and kernel validity). -/
def koutCheck {Pt : Type} [AddCommGroup Pt] (P : Prims Pt)
    (t : Nat × Option TxKernel × TxKernel) : Bool :=
  !prevGt TxKernel.cmp t.2.1 t.2.2 && kernelOk P t.2.2

/-- Block-mode per-slot check: additionally the kernel's height range must
meet the (fixed) permitted window. -/
def koutCheckB {Pt : Type} [AddCommGroup Pt] (P : Prims Pt) (h : HeightRange)
    (t : Nat × Option TxKernel × TxKernel) : Bool :=
  koutCheck P t && !(h.Intersect t.2.2.height).IsEmpty

theorem interFold_mono (h : HeightRange) (ks : List TxKernel) :
    h.mMin ≤ (interFold h ks).mMin ∧ (interFold h ks).mMax ≤ h.mMax := by
  constructor
  · rw [interFold_min]
    exact ((foldl_max_le_iff (ks.map TxKernel.hMin) h.mMin _).mp (le_refl _)).1
  · rw [interFold_max]
    exact ((le_foldl_min_iff (ks.map TxKernel.hMax) h.mMax _).mp (le_refl _)).1

theorem interFold_empty (h : HeightRange) (ks : List TxKernel)
    (he : h.IsEmpty = true) : (interFold h ks).IsEmpty = true := by
  have hm := interFold_mono h ks
  unfold HeightRange.IsEmpty at *
  simp only [decide_eq_true_eq] at *
  omega

/-- Fee chain appended by the owned kernel slots. -/
def koutFees (A : List (Nat × Option TxKernel × TxKernel)) : List Nat :=
  A.flatMap (fun t => TxKernel.treeFees t.2.2)

theorem vasKernelOuts_run_block {Pt : Type} [AddCommGroup Pt] (P : Prims Pt)
    (N k : Nat) (hN : 0 < N) (hk : k < N) :
    ∀ (l : List TxKernel) (p : Nat) (prev : Option TxKernel) (σ : Pt)
      (fee : AmountBig) (h : HeightRange) (iv : Nat) (ab : Bool),
    iv < N → (iv + p) % N = k →
    vasKernelOuts P N true l prev σ fee h iv ab =
      (if ab = true ∧ l.isEmpty = false then none
      else if ((annot p prev l).filter (fun t => t.1 % N = k)).all (koutCheckB P h) then
        some (σ + (((annot p prev l).filter (fun t => t.1 % N = k)).map
            (kinDelta P)).sum,
          (koutFees ((annot p prev l).filter (fun t => t.1 % N = k))).foldl
            AmountBig.addAmount fee,
          h, ivSteps N iv l.length)
      else none) := by
  intro l
  induction l with
  | nil =>
    intro p prev σ fee h iv ab hiv hmod
    simp [vasKernelOuts, annot, ivSteps, koutFees]
  | cons x rest ih =>
    intro p prev σ fee h iv ab hiv hmod
    rw [vasKernelOuts]
    cases ab with
    | true => simp
    | false =>
      simp only [if_neg (by simp : ¬ (false = true)), Bool.false_eq_true,
        if_false, List.isEmpty_cons, false_and]
      have hknext : (ivNext N iv + (p + 1)) % N = k := ivNext_inv N iv p k hN hiv hmod
      have hnlt : ivNext N iv < N := ivNext_lt N iv hN hiv
      have hsteps : ivSteps N iv (x :: rest).length =
          ivSteps N (ivNext N iv) rest.length := rfl
      by_cases hiv0 : iv = 0
      · subst hiv0
        have hpk : p % N = k := (iv_owned_iff N 0 p k hN hN hmod).mp rfl
        have hsv : shouldVerify N 0 = (true, N - 1) := by
          simp [shouldVerify]
        rw [hsv]
        dsimp only
        try simp only [reduceIte]
        have hannot : (annot p prev (x :: rest)).filter (fun t => t.1 % N = k) =
            (p, prev, x) :: ((annot (p + 1) (some x) rest).filter
              (fun t => t.1 % N = k)) := by
          simp [annot, List.filter_cons, hpk]
        rw [hannot]
        have hivn : ivNext N 0 = N - 1 := rfl
        by_cases hpg : prevGt TxKernel.cmp prev x
        · rw [if_pos hpg]
          have hchk : koutCheckB P h (p, prev, x) = false := by
            simp [koutCheckB, koutCheck, hpg]
          simp [List.all_cons, hchk]
        · rw [if_neg hpg]
          rw [isValid_eq]
          by_cases hko : kernelOk P x
          · rw [if_pos hko]
            dsimp only
            unfold HandleElementHeight
            by_cases hie : (h.Intersect x.height).IsEmpty = true
            · rw [if_pos hie]
              have hchk : koutCheckB P h (p, prev, x) = false := by
                simp [koutCheckB, hie]
              simp [List.all_cons, hchk]
            · rw [if_neg hie]
              dsimp only
              try simp only [reduceIte]
              rw [ih (p + 1) (some x) (σ + kernelExc P x)
                ((TxKernel.treeFees x).foldl AmountBig.addAmount fee) h (N - 1)
                false (hivn ▸ hnlt) (hivn ▸ hknext)]
              have hchk : koutCheckB P h (p, prev, x) = true := by
                simp [koutCheckB, koutCheck, hpg, hko, hie]
              simp only [Bool.false_eq_true, false_and,
                if_neg (by simp : ¬ False), List.all_cons, hchk, Bool.true_and,
                List.map_cons, List.sum_cons]
              rw [hsteps]
              by_cases hall : ((annot (p + 1) (some x) rest).filter
                  (fun t => t.1 % N = k)).all (koutCheckB P h) = true
              · rw [if_pos hall, if_pos hall]
                have hkf : koutFees ((p, prev, x) ::
                    ((annot (p + 1) (some x) rest).filter (fun t => t.1 % N = k))) =
                    TxKernel.treeFees x ++ koutFees ((annot (p + 1) (some x)
                      rest).filter (fun t => t.1 % N = k)) := by
                  simp [koutFees]
                rw [hkf, List.foldl_append, add_assoc]
                rfl
              · rw [if_neg hall, if_neg hall]
          · rw [if_neg hko]
            have hchk : koutCheckB P h (p, prev, x) = false := by
              simp [koutCheckB, koutCheck, hko]
            simp [List.all_cons, hchk]
      · have hpk : ¬ (p % N = k) := by
          intro hc
          exact hiv0 ((iv_owned_iff N iv p k hN hiv hmod).mpr hc)
        have hsv : shouldVerify N iv = (false, iv - 1) := by
          simp [shouldVerify, hiv0]
        rw [hsv]
        dsimp only
        have hannot : (annot p prev (x :: rest)).filter (fun t => t.1 % N = k) =
            (annot (p + 1) (some x) rest).filter (fun t => t.1 % N = k) := by
          simp [annot, List.filter_cons, hpk]
        have hivn : ivNext N iv = iv - 1 := by
          simp [ivNext, hiv0]
        simp only [Bool.false_eq_true, if_false]
        rw [ih (p + 1) (some x) σ fee h (iv - 1) false (hivn ▸ hnlt)
          (hivn ▸ hknext), hannot, hsteps, hivn]
        simp

theorem interFold_cond_eq (h : HeightRange) (ks : List TxKernel)
    (hne : h.IsEmpty = false) :
    (ks.isEmpty || !(interFold h ks).IsEmpty) = !(interFold h ks).IsEmpty := by
  cases ks with
  | nil => simp [interFold, hne]
  | cons a as => simp

theorem vasKernelOuts_run_nonblock {Pt : Type} [AddCommGroup Pt] (P : Prims Pt)
    (N k : Nat) (hN : 0 < N) (hk : k < N) :
    ∀ (l : List TxKernel) (p : Nat) (prev : Option TxKernel) (σ : Pt)
      (fee : AmountBig) (h : HeightRange) (iv : Nat) (ab : Bool),
    iv < N → (iv + p) % N = k →
    vasKernelOuts P N false l prev σ fee h iv ab =
      (if ab = true ∧ l.isEmpty = false then none
      else if ((annot p prev l).filter (fun t => t.1 % N = k)).all (koutCheck P) &&
          ((((annot p prev l).filter (fun t => t.1 % N = k)).map
              (fun t => t.2.2)).isEmpty ||
           !(interFold h (((annot p prev l).filter (fun t => t.1 % N = k)).map
            (fun t => t.2.2))).IsEmpty) then
        some (σ + (((annot p prev l).filter (fun t => t.1 % N = k)).map
            (kinDelta P)).sum,
          (koutFees ((annot p prev l).filter (fun t => t.1 % N = k))).foldl
            AmountBig.addAmount fee,
          interFold h (((annot p prev l).filter (fun t => t.1 % N = k)).map
            (fun t => t.2.2)),
          ivSteps N iv l.length)
      else none) := by
  intro l
  induction l with
  | nil =>
    intro p prev σ fee h iv ab hiv hmod
    simp [vasKernelOuts, annot, ivSteps, koutFees, interFold]
  | cons x rest ih =>
    intro p prev σ fee h iv ab hiv hmod
    rw [vasKernelOuts]
    cases ab with
    | true => simp
    | false =>
      simp only [if_neg (by simp : ¬ (false = true)), Bool.false_eq_true,
        if_false, List.isEmpty_cons, false_and]
      have hknext : (ivNext N iv + (p + 1)) % N = k := ivNext_inv N iv p k hN hiv hmod
      have hnlt : ivNext N iv < N := ivNext_lt N iv hN hiv
      have hsteps : ivSteps N iv (x :: rest).length =
          ivSteps N (ivNext N iv) rest.length := rfl
      by_cases hiv0 : iv = 0
      · subst hiv0
        have hpk : p % N = k := (iv_owned_iff N 0 p k hN hN hmod).mp rfl
        have hsv : shouldVerify N 0 = (true, N - 1) := by
          simp [shouldVerify]
        rw [hsv]
        dsimp only
        try simp only [reduceIte]
        have hannot : (annot p prev (x :: rest)).filter (fun t => t.1 % N = k) =
            (p, prev, x) :: ((annot (p + 1) (some x) rest).filter
              (fun t => t.1 % N = k)) := by
          simp [annot, List.filter_cons, hpk]
        rw [hannot]
        have hivn : ivNext N 0 = N - 1 := rfl
        have hifold : ∀ (h2 : HeightRange),
            interFold h2 (((p, prev, x) :: ((annot (p + 1) (some x) rest).filter
              (fun t => t.1 % N = k))).map (fun t => t.2.2)) =
            interFold (h2.Intersect x.height)
              (((annot (p + 1) (some x) rest).filter (fun t => t.1 % N = k)).map
                (fun t => t.2.2)) := by
          intro h2
          rfl
        by_cases hpg : prevGt TxKernel.cmp prev x
        · rw [if_pos hpg]
          have hchk : koutCheck P (p, prev, x) = false := by
            simp [koutCheck, hpg]
          simp [List.all_cons, hchk]
        · rw [if_neg hpg]
          rw [isValid_eq]
          by_cases hko : kernelOk P x
          · rw [if_pos hko]
            dsimp only
            unfold HandleElementHeight
            have hchk : koutCheck P (p, prev, x) = true := by
              simp [koutCheck, hpg, hko]
            by_cases hie : (h.Intersect x.height).IsEmpty = true
            · rw [if_pos hie]
              have hfe : (interFold (h.Intersect x.height)
                  (((annot (p + 1) (some x) rest).filter (fun t => t.1 % N = k)).map
                    (fun t => t.2.2))).IsEmpty = true :=
                interFold_empty _ _ hie
              rw [hifold h]
              simp [List.all_cons, hchk, hfe]
            · rw [if_neg hie]
              dsimp only
              try simp only [reduceIte]
              simp only [Bool.false_eq_true, if_false]
              have hrne : (h.Intersect x.height).IsEmpty = false := by
                cases hr : (h.Intersect x.height).IsEmpty
                · rfl
                · exact absurd hr hie
              rw [ih (p + 1) (some x) (σ + kernelExc P x)
                ((TxKernel.treeFees x).foldl AmountBig.addAmount fee)
                (h.Intersect x.height) (N - 1) false (hivn ▸ hnlt) (hivn ▸ hknext)]
              rw [interFold_cond_eq (h.Intersect x.height)
                (((annot (p + 1) (some x) rest).filter (fun t => t.1 % N = k)).map
                  (fun t => t.2.2)) hrne]
              rw [hifold h]
              simp only [Bool.false_eq_true, false_and,
                if_neg (by simp : ¬ False), List.all_cons, hchk, Bool.true_and,
                List.map_cons, List.sum_cons, List.isEmpty_cons, Bool.false_or]
              rw [hsteps]
              by_cases hcond : (((annot (p + 1) (some x) rest).filter
                    (fun t => t.1 % N = k)).all (koutCheck P) &&
                  !(interFold (h.Intersect x.height)
                    (((annot (p + 1) (some x) rest).filter (fun t => t.1 % N = k)).map
                      (fun t => t.2.2))).IsEmpty) = true
              · rw [if_pos hcond, if_pos hcond]
                have hkf : koutFees ((p, prev, x) ::
                    ((annot (p + 1) (some x) rest).filter (fun t => t.1 % N = k))) =
                    TxKernel.treeFees x ++ koutFees ((annot (p + 1) (some x)
                      rest).filter (fun t => t.1 % N = k)) := by
                  simp [koutFees]
                rw [hkf, List.foldl_append, add_assoc]
                rfl
              · rw [if_neg hcond, if_neg hcond]
          · rw [if_neg hko]
            have hchk : koutCheck P (p, prev, x) = false := by
              simp [koutCheck, hko]
            simp [List.all_cons, hchk]
      · have hpk : ¬ (p % N = k) := by
          intro hc
          exact hiv0 ((iv_owned_iff N iv p k hN hiv hmod).mpr hc)
        have hsv : shouldVerify N iv = (false, iv - 1) := by
          simp [shouldVerify, hiv0]
        rw [hsv]
        dsimp only
        have hannot : (annot p prev (x :: rest)).filter (fun t => t.1 % N = k) =
            (annot (p + 1) (some x) rest).filter (fun t => t.1 % N = k) := by
          simp [annot, List.filter_cons, hpk]
        have hivn : ivNext N iv = iv - 1 := by
          simp [ivNext, hiv0]
        simp only [Bool.false_eq_true, if_false]
        rw [ih (p + 1) (some x) σ fee h (iv - 1) false (hivn ▸ hnlt)
          (hivn ▸ hknext), hannot, hsteps, hivn]
        simp

/-! ### Per-shard closed form of `ValidateAndSummarize` -/

theorem ivSteps_lt (N : Nat) (hN : 0 < N) :
    ∀ (n iv : Nat), iv < N → ivSteps N iv n < N := by
  intro n
  induction n with
  | zero => intro iv h; exact h
  | succ n ih =>
    intro iv h
    exact ih (ivNext N iv) (ivNext_lt N iv hN h)

theorem ivSteps_inv (N k : Nat) (hN : 0 < N) :
    ∀ (n iv p : Nat), iv < N → (iv + p) % N = k →
    (ivSteps N iv n + (p + n)) % N = k := by
  intro n
  induction n with
  | zero =>
    intro iv p h hm
    show (iv + (p + 0)) % N = k
    simpa using hm
  | succ n ih =>
    intro iv p h hm
    show (ivSteps N (ivNext N iv) n + (p + (n + 1))) % N = k
    have h2 := ih (ivNext N iv) (p + 1) (ivNext_lt N iv hN h)
      (ivNext_inv N iv p k hN h hm)
    have he : p + 1 + n = p + (n + 1) := by omega
    rw [he] at h2
    exact h2

theorem annot_mem {α : Type} :
    ∀ (l : List α) (p : Nat) (prev : Option α) (t : Nat × Option α × α),
    t ∈ annot p prev l → t.2.2 ∈ l := by
  intro l
  induction l with
  | nil =>
    intro p prev t h
    simp [annot] at h
  | cons x rest ih =>
    intro p prev t h
    rw [annot] at h
    rcases List.mem_cons.mp h with h1 | h2
    · subst h1
      simp
    · exact List.mem_cons_of_mem _ (ih (p + 1) (some x) t h2)

theorem filter_mod_one {β : Type} (key : β → Nat) (B : List β) :
    B.filter (fun b => key b % 1 = 0) = B := by
  apply List.filter_eq_self.mpr
  intro b _
  simp [Nat.mod_one]

theorem foldl_add_sum {M α : Type} [AddCommMonoid M] (g : α → M) :
    ∀ (l : List α) (b : M), l.foldl (fun a x => a + g x) b = b + (l.map g).sum := by
  intro l
  induction l with
  | nil => intro b; simp
  | cons x rest ih =>
    intro b
    rw [List.foldl_cons, ih]
    simp [add_assoc]

/-- Owned annotated inputs of the shard with verifier index `k`. -/
def shardF1 (N k : Nat) (r : TxData) : List (Nat × Option Input × Input) :=
  (annot 0 none r.vInputs).filter (fun t => t.1 % N = k)

/-- Owned annotated input kernels of shard `k`. -/
def shardF2 (N k : Nat) (r : TxData) : List (Nat × Option TxKernel × TxKernel) :=
  (annot r.vInputs.length none r.vKernelsInput).filter (fun t => t.1 % N = k)

/-- Owned annotated outputs of shard `k`. -/
def shardF3 (N k : Nat) (r : TxData) : List (Nat × Option Output × Output) :=
  (annot (r.vInputs.length + r.vKernelsInput.length) none r.vOutputs).filter
    (fun t => t.1 % N = k)

/-- Owned annotated output kernels of shard `k`. -/
def shardF4 (N k : Nat) (r : TxData) : List (Nat × Option TxKernel × TxKernel) :=
  (annot (r.vInputs.length + r.vKernelsInput.length + r.vOutputs.length) none
    r.vKernelsOutput).filter (fun t => t.1 % N = k)

/-- Total number of `ShouldVerify` slots consumed before the offset slot. -/
def totalSlots (r : TxData) : Nat :=
  r.vInputs.length + r.vKernelsInput.length + r.vOutputs.length +
    r.vKernelsOutput.length

/-- Output kernels owned by shard `k`. -/
def shardKernels (N k : Nat) (r : TxData) : List TxKernel :=
  (shardF4 N k r).map (fun t => t.2.2)

/-- All per-slot checks passed by shard `k`. -/
def shardOk {Pt : Type} [AddCommGroup Pt] (P : Prims Pt) (R : Rules)
    (hr : HeightRange) (bm : Bool) (N k : Nat) (r : TxData) : Bool :=
  (shardF1 N k r).all (inpCheck P) && (shardF2 N k r).all (kinCheck P) &&
    (shardF3 N k r).all (outCheck P R bm) &&
    (if bm then (shardF4 N k r).all (koutCheckB P hr)
     else (shardF4 N k r).all (koutCheck P) &&
       ((shardKernels N k r).isEmpty ||
        !(interFold hr (shardKernels N k r)).IsEmpty))

/-- Commitment sum reported by shard `k`. -/
def shardSigma {Pt : Type} [AddCommGroup Pt] (P : Prims Pt) (R : Rules)
    (N k : Nat) (r : TxData) (off : Nat) : Pt :=
  -(((shardF1 N k r).map (inpDelta P)).sum +
      ((shardF2 N k r).map (kinDelta P)).sum) +
    ((shardF3 N k r).map (outDelta P R)).sum +
    ((shardF4 N k r).map (kinDelta P)).sum +
    (if totalSlots r % N = k then off • P.G else 0)

/-- Fee total reported by shard `k`. -/
def shardFee (N k : Nat) (r : TxData) : AmountBig :=
  (koutFees (shardF4 N k r)).foldl AmountBig.addAmount ⟨0, 0⟩

/-- Coinbase total reported by shard `k`. -/
def shardCb (N k : Nat) (r : TxData) : AmountBig :=
  ((shardF3 N k r).flatMap outCb).foldl AmountBig.addAmount ⟨0, 0⟩

/-- Height window reported by shard `k`. -/
def shardHeight (hr : HeightRange) (bm : Bool) (N k : Nat) (r : TxData) :
    HeightRange :=
  if bm then hr else interFold hr (shardKernels N k r)

/-- Full context reported by shard `k` on success. -/
def shardCtx {Pt : Type} [AddCommGroup Pt] (P : Prims Pt) (R : Rules)
    (hr : HeightRange) (bm : Bool) (off : Nat) (r : TxData) (N k : Nat) :
    Context Pt :=
  ⟨shardSigma P R N k r off, shardFee N k r, shardCb N k r,
    shardHeight hr bm N k r, bm, N, k, false⟩

theorem vas_shard_eq {Pt : Type} [AddCommGroup Pt] (P : Prims Pt) (R : Rules)
    (hr : HeightRange) (bm : Bool) (off : Nat) (r : TxData) (N k : Nat)
    (hN : 0 < N) (hk : k < N) (hhr : hr.IsEmpty = false) :
    ValidateAndSummarize P R (baseCtx hr bm N k false) off r =
      (if (matchScan r.vKernelsInput r.vKernelsOutput).isSome &&
          shardOk P R hr bm N k r then
        some (shardCtx P R hr bm off r N k)
      else none) := by
  have hmod0 : (k + 0) % N = k := by
    rw [Nat.add_zero]
    exact Nat.mod_eq_of_lt hk
  have h1lt : ivSteps N k r.vInputs.length < N := ivSteps_lt N hN _ k hk
  have h1inv : (ivSteps N k r.vInputs.length + r.vInputs.length) % N = k := by
    have := ivSteps_inv N k hN r.vInputs.length k 0 hk hmod0
    simpa using this
  unfold ValidateAndSummarize
  dsimp only [baseCtx]
  rw [hhr]
  simp only [Bool.false_eq_true, if_false]
  rw [vasInputs_run P N k hN hk r.vInputs 0 none (-0) k false hk hmod0]
  simp only [Bool.false_eq_true, false_and, ne_eq, if_neg (by simp : ¬ False)]
  by_cases hall1 : ((annot 0 none r.vInputs).filter
      (fun t => t.1 % N = k)).all (inpCheck P) = true
  case neg =>
    rw [if_neg hall1]
    dsimp only
    have hok : shardOk P R hr bm N k r = false := by
      simp [shardOk, shardF1, hall1]
    rw [hok]
    simp
  case pos =>
    rw [if_pos hall1]
    dsimp only
    generalize hv2 : vasKernelIns P N r.vKernelsInput r.vKernelsOutput none ⟨0, 0⟩
      (-0 + (((annot 0 none r.vInputs).filter
        (fun t => t.1 % N = k)).map (inpDelta P)).sum)
      (ivSteps N k r.vInputs.length) false = v2
    have hrun2 := vasKernelIns_run P N k hN hk r.vKernelsInput r.vKernelsOutput
      r.vInputs.length none ⟨0, 0⟩
      (-0 + (((annot 0 none r.vInputs).filter
        (fun t => t.1 % N = k)).map (inpDelta P)).sum)
      (ivSteps N k r.vInputs.length) false h1lt h1inv
    rw [hv2] at hrun2
    simp only [Bool.false_eq_true, false_and, if_neg (by simp : ¬ False)] at hrun2
    rcases hms : matchScan r.vKernelsInput r.vKernelsOutput with _ | kosf2
    · rw [hms] at hrun2
      rcases v2 with _ | ⟨kosf, fd, σ2, iv2⟩
      · simp
      · simp at hrun2
    · rw [hms] at hrun2
      rcases v2 with _ | ⟨kosf, fd, σ2, iv2⟩
      · simp only [Option.map_none'] at hrun2
        by_cases hall2 : ((annot r.vInputs.length none r.vKernelsInput).filter
            (fun t => t.1 % N = k)).all (kinCheck P) = true
        · rw [if_pos hall2] at hrun2
          exact absurd hrun2 (by simp)
        · dsimp only
          have hok : shardOk P R hr bm N k r = false := by
            simp only [shardOk, shardF2]
            simp [hall2]
          rw [hok]
          simp
      · simp only [Option.map_some'] at hrun2
        by_cases hall2 : ((annot r.vInputs.length none r.vKernelsInput).filter
            (fun t => t.1 % N = k)).all (kinCheck P) = true
        case neg =>
          rw [if_neg hall2] at hrun2
          exact absurd hrun2 (by simp)
        case pos =>
          rw [if_pos hall2] at hrun2
          simp only [Option.some.injEq, Prod.mk.injEq] at hrun2
          obtain ⟨hkk, hσ2, hiv2⟩ := hrun2
          subst hσ2
          subst hiv2
          dsimp only
          have h2lt : ivSteps N (ivSteps N k r.vInputs.length)
              r.vKernelsInput.length < N := ivSteps_lt N hN _ _ h1lt
          have h2inv : (ivSteps N (ivSteps N k r.vInputs.length)
              r.vKernelsInput.length +
              (r.vInputs.length + r.vKernelsInput.length)) % N = k :=
            ivSteps_inv N k hN r.vKernelsInput.length _ r.vInputs.length h1lt h1inv
          rw [vasOutputs_run P R N k hN hk bm r.vOutputs
            (r.vInputs.length + r.vKernelsInput.length) none _ ⟨0, 0⟩ _ false
            h2lt h2inv]
          simp only [Bool.false_eq_true, false_and, if_neg (by simp : ¬ False)]
          by_cases hall3 : ((annot (r.vInputs.length + r.vKernelsInput.length)
              none r.vOutputs).filter (fun t => t.1 % N = k)).all
              (outCheck P R bm) = true
          case neg =>
            rw [if_neg hall3]
            dsimp only
            have hok : shardOk P R hr bm N k r = false := by
              simp only [shardOk, shardF3]
              simp [hall3]
            rw [hok]
            simp
          case pos =>
            rw [if_pos hall3]
            dsimp only
            have h3lt : ivSteps N (ivSteps N (ivSteps N k r.vInputs.length)
                r.vKernelsInput.length) r.vOutputs.length < N :=
              ivSteps_lt N hN _ _ h2lt
            have h3inv : (ivSteps N (ivSteps N (ivSteps N k r.vInputs.length)
                r.vKernelsInput.length) r.vOutputs.length +
                (r.vInputs.length + r.vKernelsInput.length +
                  r.vOutputs.length)) % N = k :=
              ivSteps_inv N k hN r.vOutputs.length _ _ h2lt h2inv
            have h4lt : ivSteps N (ivSteps N (ivSteps N (ivSteps N k
                r.vInputs.length) r.vKernelsInput.length) r.vOutputs.length)
                r.vKernelsOutput.length < N := ivSteps_lt N hN _ _ h3lt
            have h4inv : (ivSteps N (ivSteps N (ivSteps N (ivSteps N k
                r.vInputs.length) r.vKernelsInput.length) r.vOutputs.length)
                r.vKernelsOutput.length + totalSlots r) % N = k :=
              ivSteps_inv N k hN r.vKernelsOutput.length _ _ h3lt h3inv
            cases bm with
            | true =>
              rw [vasKernelOuts_run_block P N k hN hk r.vKernelsOutput
                (r.vInputs.length + r.vKernelsInput.length + r.vOutputs.length)
                none _ ⟨0, 0⟩ hr _ false h3lt h3inv]
              simp only [Bool.false_eq_true, false_and,
                if_neg (by simp : ¬ False)]
              by_cases hall4 : ((annot (r.vInputs.length +
                  r.vKernelsInput.length + r.vOutputs.length) none
                  r.vKernelsOutput).filter (fun t => t.1 % N = k)).all
                  (koutCheckB P hr) = true
              case neg =>
                rw [if_neg hall4]
                dsimp only
                have hok : shardOk P R hr true N k r = false := by
                  simp only [shardOk, shardF4]
                  simp [hall4]
                rw [hok]
                simp
              case pos =>
                rw [if_pos hall4]
                dsimp only
                have hok : shardOk P R hr true N k r = true := by
                  simp only [shardOk, shardF1, shardF2, shardF3, shardF4]
                  simp [hall1, hall2, hall3, hall4]
                rw [hok]
                simp only [Option.isSome_some, Bool.and_self, if_pos rfl]
                try simp only [reduceIte]
                simp only [shardCtx, Option.some.injEq, Context.mk.injEq,
                  shardFee, shardCb, shardHeight, shardKernels, shardF4, shardF3,
                  Bool.false_eq_true, if_false, reduceIte, and_true, true_and]
                by_cases hL : totalSlots r % N = k
                case pos =>
                  have hiv0 : ivSteps N (ivSteps N (ivSteps N (ivSteps N k
                      r.vInputs.length) r.vKernelsInput.length)
                      r.vOutputs.length) r.vKernelsOutput.length = 0 :=
                    (iv_owned_iff N _ (totalSlots r) k hN h4lt h4inv).mpr hL
                  rw [hiv0]
                  simp only [shouldVerify, ne_eq, not_true_eq_false,
                    if_neg (by simp : ¬ (0 ≠ 0))]
                  try dsimp only
                  try simp only [reduceIte]
                  simp only [shardSigma, shardF1, shardF2, shardF3, shardF4,
                    if_pos hL]
                  abel
                case neg =>
                  have hivne : ¬ (ivSteps N (ivSteps N (ivSteps N (ivSteps N k
                      r.vInputs.length) r.vKernelsInput.length)
                      r.vOutputs.length) r.vKernelsOutput.length = 0) := by
                    intro h0
                    exact hL ((iv_owned_iff N _ (totalSlots r) k hN h4lt
                      h4inv).mp h0)
                  simp only [shouldVerify, ne_eq, if_pos hivne]
                  try dsimp only
                  simp only [Bool.false_eq_true, if_false]
                  simp only [shardSigma, shardF1, shardF2, shardF3, shardF4,
                    if_neg hL]
                  abel
            | false =>
              rw [vasKernelOuts_run_nonblock P N k hN hk r.vKernelsOutput
                (r.vInputs.length + r.vKernelsInput.length + r.vOutputs.length)
                none _ ⟨0, 0⟩ hr _ false h3lt h3inv]
              simp only [Bool.false_eq_true, false_and,
                if_neg (by simp : ¬ False)]
              by_cases hall4 : (((annot (r.vInputs.length +
                  r.vKernelsInput.length + r.vOutputs.length) none
                  r.vKernelsOutput).filter (fun t => t.1 % N = k)).all
                  (koutCheck P) &&
                  ((((annot (r.vInputs.length + r.vKernelsInput.length +
                    r.vOutputs.length) none r.vKernelsOutput).filter
                    (fun t => t.1 % N = k)).map (fun t => t.2.2)).isEmpty ||
                   !(interFold hr (((annot (r.vInputs.length +
                    r.vKernelsInput.length + r.vOutputs.length) none
                    r.vKernelsOutput).filter (fun t => t.1 % N = k)).map
                    (fun t => t.2.2))).IsEmpty)) = true
              case neg =>
                rw [if_neg hall4]
                dsimp only
                have hall4f := Bool.eq_false_iff.mpr hall4
                have hok : shardOk P R hr false N k r = false := by
                  simp only [shardOk, shardF4, shardKernels, Bool.false_eq_true,
                    if_false]
                  rw [hall4f]
                  simp
                rw [hok]
                simp
              case pos =>
                rw [if_pos hall4]
                dsimp only
                simp only [Bool.and_eq_true] at hall4
                have hok : shardOk P R hr false N k r = true := by
                  simp only [shardOk, shardF1, shardF2, shardF3, shardF4,
                    shardKernels]
                  simp [hall1, hall2, hall3, hall4.1, hall4.2]
                rw [hok]
                simp only [Option.isSome_some, Bool.and_self, if_pos rfl]
                try simp only [reduceIte]
                simp only [shardCtx, Option.some.injEq, Context.mk.injEq,
                  shardFee, shardCb, shardHeight, shardKernels, shardF4, shardF3,
                  Bool.false_eq_true, if_false, reduceIte, and_true, true_and]
                by_cases hL : totalSlots r % N = k
                case pos =>
                  have hiv0 : ivSteps N (ivSteps N (ivSteps N (ivSteps N k
                      r.vInputs.length) r.vKernelsInput.length)
                      r.vOutputs.length) r.vKernelsOutput.length = 0 :=
                    (iv_owned_iff N _ (totalSlots r) k hN h4lt h4inv).mpr hL
                  rw [hiv0]
                  simp only [shouldVerify, ne_eq, not_true_eq_false,
                    if_neg (by simp : ¬ (0 ≠ 0))]
                  try dsimp only
                  try simp only [reduceIte]
                  simp only [shardSigma, shardF1, shardF2, shardF3, shardF4,
                    if_pos hL]
                  abel
                case neg =>
                  have hivne : ¬ (ivSteps N (ivSteps N (ivSteps N (ivSteps N k
                      r.vInputs.length) r.vKernelsInput.length)
                      r.vOutputs.length) r.vKernelsOutput.length = 0) := by
                    intro h0
                    exact hL ((iv_owned_iff N _ (totalSlots r) k hN h4lt
                      h4inv).mp h0)
                  simp only [shouldVerify, ne_eq, if_pos hivne]
                  try dsimp only
                  simp only [Bool.false_eq_true, if_false]
                  simp only [shardSigma, shardF1, shardF2, shardF3, shardF4,
                    if_neg hL]
                  abel

/-! ### Aggregation of the shard contexts -/

theorem shardResults_eq {Pt : Type} [AddCommGroup Pt] (P : Prims Pt) (R : Rules)
    (hr : HeightRange) (bm : Bool) (off : Nat) (r : TxData) (N : Nat)
    (hN : 0 < N) (hhr : hr.IsEmpty = false) :
    ∀ (c : Nat), c ≤ N →
    shardResults P R hr bm false off r N c =
      (if (List.range c).all (fun k =>
          (matchScan r.vKernelsInput r.vKernelsOutput).isSome &&
          shardOk P R hr bm N k r) then
        some ((List.range c).map (fun k => shardCtx P R hr bm off r N k))
      else none) := by
  intro c
  induction c with
  | zero =>
    intro _
    simp [shardResults]
  | succ c ih =>
    intro hc
    rw [shardResults, ih (by omega),
      vas_shard_eq P R hr bm off r N c hN (by omega) hhr]
    rw [List.range_succ]
    by_cases h1 : (List.range c).all (fun k =>
        (matchScan r.vKernelsInput r.vKernelsOutput).isSome &&
        shardOk P R hr bm N k r) = true
    · rw [if_pos h1]
      by_cases h2 : ((matchScan r.vKernelsInput r.vKernelsOutput).isSome &&
          shardOk P R hr bm N c r) = true
      · rw [if_pos h2]
        have hall : ((List.range c) ++ [c]).all (fun k =>
            (matchScan r.vKernelsInput r.vKernelsOutput).isSome &&
            shardOk P R hr bm N k r) = true := by
          rw [List.all_append]
          simp [h1, h2]
        rw [if_pos hall]
        simp
      · rw [if_neg h2]
        have hall : ¬ ((List.range c) ++ [c]).all (fun k =>
            (matchScan r.vKernelsInput r.vKernelsOutput).isSome &&
            shardOk P R hr bm N k r) = true := by
          rw [List.all_append]
          simp [h2]
        rw [if_neg hall]
    · rw [if_neg h1]
      have hall : ¬ ((List.range c) ++ [c]).all (fun k =>
          (matchScan r.vKernelsInput r.vKernelsOutput).isSome &&
          shardOk P R hr bm N k r) = true := by
        rw [List.all_append]
        intro hx
        exact h1 (Bool.and_eq_true .. ▸ hx).1
      rw [if_neg hall]

/-- Running intersection of a window with a list of windows. -/
def hFold (h : HeightRange) (hs : List HeightRange) : HeightRange :=
  hs.foldl HeightRange.Intersect h

theorem hFold_min : ∀ (hs : List HeightRange) (h : HeightRange),
    (hFold h hs).mMin = (hs.map HeightRange.mMin).foldl max h.mMin := by
  intro hs
  induction hs with
  | nil => intro h; rfl
  | cons x rest ih =>
    intro h
    show (hFold (h.Intersect x) rest).mMin = _
    rw [ih]
    rfl

theorem hFold_max : ∀ (hs : List HeightRange) (h : HeightRange),
    (hFold h hs).mMax = (hs.map HeightRange.mMax).foldl min h.mMax := by
  intro hs
  induction hs with
  | nil => intro h; rfl
  | cons x rest ih =>
    intro h
    show (hFold (h.Intersect x) rest).mMax = _
    rw [ih]
    rfl

theorem hFold_mono (h : HeightRange) (hs : List HeightRange) :
    h.mMin ≤ (hFold h hs).mMin ∧ (hFold h hs).mMax ≤ h.mMax := by
  constructor
  · rw [hFold_min]
    exact ((foldl_max_le_iff (hs.map HeightRange.mMin) h.mMin _).mp (le_refl _)).1
  · rw [hFold_max]
    exact ((le_foldl_min_iff (hs.map HeightRange.mMax) h.mMax _).mp (le_refl _)).1

theorem hFold_empty (h : HeightRange) (hs : List HeightRange)
    (he : h.IsEmpty = true) : (hFold h hs).IsEmpty = true := by
  have hm := hFold_mono h hs
  unfold HeightRange.IsEmpty at *
  simp only [decide_eq_true_eq] at *
  omega

theorem hFold_cond_eq (h : HeightRange) (hs : List HeightRange)
    (hne : h.IsEmpty = false) :
    (hs.isEmpty || !(hFold h hs).IsEmpty) = !(hFold h hs).IsEmpty := by
  cases hs with
  | nil => simp [hFold, hne]
  | cons a as => simp

theorem mergeList_block {Pt : Type} [AddCommGroup Pt] :
    ∀ (cs : List (Context Pt)) (c : Context Pt), c.mBlockMode = true →
    mergeList c cs =
      (if cs.all (fun x => !(c.mHeight.Intersect x.mHeight).IsEmpty) then
        some { c with
          mSigma := cs.foldl (fun a x => a + x.mSigma) c.mSigma,
          mFee := cs.foldl (fun a x => a.addBig x.mFee) c.mFee,
          mCoinbase := cs.foldl (fun a x => a.addBig x.mCoinbase) c.mCoinbase }
      else none) := by
  intro cs
  induction cs with
  | nil =>
    intro c _
    simp [mergeList]
  | cons x rest ih =>
    intro c hbm
    rw [mergeList]
    unfold Context.Merge HandleElementHeight
    rw [hbm]
    dsimp only
    by_cases hie : (c.mHeight.Intersect x.mHeight).IsEmpty = true
    · rw [if_pos hie]
      simp [List.all_cons, hie]
    · rw [if_neg hie]
      dsimp only
      try simp only [reduceIte]
      rw [ih _ (by rfl)]
      simp only [List.all_cons, List.foldl_cons]
      have hne2 : (!(c.mHeight.Intersect x.mHeight).IsEmpty) = true := by
        simp [hie]
      rw [hne2]
      simp only [Bool.true_and]

theorem mergeList_nonblock {Pt : Type} [AddCommGroup Pt] :
    ∀ (cs : List (Context Pt)) (c : Context Pt), c.mBlockMode = false →
      c.mHeight.IsEmpty = false →
    mergeList c cs =
      (if (cs.map Context.mHeight).isEmpty ||
          !(hFold c.mHeight (cs.map Context.mHeight)).IsEmpty then
        some { c with
          mSigma := cs.foldl (fun a x => a + x.mSigma) c.mSigma,
          mFee := cs.foldl (fun a x => a.addBig x.mFee) c.mFee,
          mCoinbase := cs.foldl (fun a x => a.addBig x.mCoinbase) c.mCoinbase,
          mHeight := hFold c.mHeight (cs.map Context.mHeight) }
      else none) := by
  intro cs
  induction cs with
  | nil =>
    intro c _ _
    simp [mergeList, hFold]
  | cons x rest ih =>
    intro c hbm hne
    rw [mergeList]
    unfold Context.Merge HandleElementHeight
    rw [hbm]
    dsimp only
    have hfoldstep : ∀ (h2 : HeightRange),
        hFold h2 ((x :: rest).map Context.mHeight) =
        hFold (h2.Intersect x.mHeight) (rest.map Context.mHeight) := by
      intro h2
      rfl
    by_cases hie : (c.mHeight.Intersect x.mHeight).IsEmpty = true
    · rw [if_pos hie]
      have hfe : (hFold (c.mHeight.Intersect x.mHeight)
          (rest.map Context.mHeight)).IsEmpty = true := hFold_empty _ _ hie
      rw [hfoldstep c.mHeight]
      simp [hfe]
    · rw [if_neg hie]
      dsimp only
      try simp only [reduceIte]
      simp only [Bool.false_eq_true, if_false]
      have hrne : (c.mHeight.Intersect x.mHeight).IsEmpty = false := by
        cases hv : (c.mHeight.Intersect x.mHeight).IsEmpty
        · rfl
        · exact absurd hv hie
      rw [ih _ (by rfl) (by exact hrne)]
      rw [hFold_cond_eq _ _ hrne, hfoldstep c.mHeight]
      simp only [List.map_cons, List.isEmpty_cons, Bool.false_or,
        List.foldl_cons]

/-! ### Sum and fold bridges for the aggregation argument -/

theorem list_range_sum {M : Type} [AddCommMonoid M] (f : Nat → M) :
    ∀ (n : Nat), ((List.range n).map f).sum = (Finset.range n).sum f := by
  intro n
  induction n with
  | zero => simp
  | succ n ih =>
    rw [List.range_succ, Finset.sum_range_succ, List.map_append,
      List.sum_append, ih]
    simp

theorem sum_mod_collapse (M : Nat) :
    ∀ (l : List Nat), (l.map (fun x => x % M)).sum % M = l.sum % M := by
  intro l
  induction l with
  | nil => simp
  | cons x rest ih =>
    simp only [List.map_cons, List.sum_cons]
    rw [Nat.add_mod, Nat.mod_mod_of_dvd _ (dvd_refl M), ih, ← Nat.add_mod]

theorem sum_flatMap {α : Type} (g : α → List Nat) :
    ∀ (l : List α), (l.flatMap g).sum = (l.map (fun a => (g a).sum)).sum := by
  intro l
  induction l with
  | nil => simp
  | cons x rest ih =>
    rw [List.flatMap_cons, List.sum_append, ih]
    simp

theorem foldl_addBig_val :
    ∀ (xs : List AmountBig) (a : AmountBig), a.Wf → (∀ x ∈ xs, x.Wf) →
    (xs.foldl AmountBig.addBig a).Wf ∧
    (xs.foldl AmountBig.addBig a).val = (a.val + (xs.map AmountBig.val).sum) % W128 := by
  intro xs
  induction xs with
  | nil =>
    intro a ha _
    refine ⟨ha, ?_⟩
    simpa using (Nat.mod_eq_of_lt (AmountBig.val_lt a ha)).symm
  | cons x rest ih =>
    intro a ha hx
    have h1 := addBig_val a x ha (hx x (List.mem_cons_self x rest))
    have h2 := ih (a.addBig x) h1.1 (fun y hy => hx y (List.mem_cons_of_mem x hy))
    refine ⟨h2.1, ?_⟩
    rw [List.foldl_cons] at *
    rw [h2.2, h1.2, Nat.mod_add_mod, List.map_cons, List.sum_cons]
    ring_nf

theorem addBig_chain_val (g : Nat → AmountBig) (m : Nat)
    (hwf : ∀ k, (g k).Wf) :
    (((List.range m).map (fun i => g (i + 1))).foldl AmountBig.addBig (g 0)).Wf ∧
    (((List.range m).map (fun i => g (i + 1))).foldl AmountBig.addBig (g 0)).val =
      ((List.range (m + 1)).map (fun k => (g k).val)).sum % W128 := by
  have h := foldl_addBig_val ((List.range m).map (fun i => g (i + 1))) (g 0)
    (hwf 0) (by
      intro x hx
      rcases List.mem_map.mp hx with ⟨i, _, rfl⟩
      exact hwf (i + 1))
  refine ⟨h.1, ?_⟩
  rw [h.2, List.range_succ_eq_map, List.map_cons, List.sum_cons, List.map_map,
    List.map_map]
  rfl

theorem foldl_max_nested (b : Nat) (f : Nat → List Nat) (n : Nat) (A : List Nat)
    (hmem : ∀ x, x ∈ A ↔ ∃ k, k < n + 1 ∧ x ∈ f k) :
    ((List.range n).map (fun i => (f (i + 1)).foldl max b)).foldl max
        ((f 0).foldl max b) = A.foldl max b := by
  have key : ∀ c, (((List.range n).map (fun i => (f (i + 1)).foldl max b)).foldl
      max ((f 0).foldl max b) ≤ c) ↔ A.foldl max b ≤ c := by
    intro c
    rw [foldl_max_le_iff, foldl_max_le_iff, foldl_max_le_iff]
    constructor
    · rintro ⟨⟨hb, h0⟩, hrest⟩
      refine ⟨hb, ?_⟩
      intro x hx
      rcases (hmem x).mp hx with ⟨k, hk, hxk⟩
      rcases Nat.eq_zero_or_pos k with rfl | hkpos
      · exact h0 x hxk
      · have hm2 : (f k).foldl max b ∈ (List.range n).map
            (fun i => (f (i + 1)).foldl max b) := by
          refine List.mem_map.mpr ⟨k - 1, List.mem_range.mpr (by omega), ?_⟩
          have hkk : k - 1 + 1 = k := by omega
          rw [hkk]
        have h3 := hrest _ hm2
        rw [foldl_max_le_iff] at h3
        exact h3.2 x hxk
    · rintro ⟨hb, hA⟩
      refine ⟨⟨hb, fun x hx => hA x ((hmem x).mpr ⟨0, by omega, hx⟩)⟩, ?_⟩
      intro y hy
      rcases List.mem_map.mp hy with ⟨i, hi, rfl⟩
      rw [foldl_max_le_iff]
      refine ⟨hb, fun x hx => hA x ((hmem x).mpr ⟨i + 1, ?_, hx⟩)⟩
      have := List.mem_range.mp hi
      omega
  have h1 := (key (A.foldl max b)).mpr (le_refl _)
  have h2 := (key _).mp (le_refl _)
  omega

theorem foldl_min_nested (b : Nat) (f : Nat → List Nat) (n : Nat) (A : List Nat)
    (hmem : ∀ x, x ∈ A ↔ ∃ k, k < n + 1 ∧ x ∈ f k) :
    ((List.range n).map (fun i => (f (i + 1)).foldl min b)).foldl min
        ((f 0).foldl min b) = A.foldl min b := by
  have key : ∀ c, (c ≤ ((List.range n).map (fun i => (f (i + 1)).foldl min b)).foldl
      min ((f 0).foldl min b)) ↔ c ≤ A.foldl min b := by
    intro c
    rw [le_foldl_min_iff, le_foldl_min_iff, le_foldl_min_iff]
    constructor
    · rintro ⟨⟨hb, h0⟩, hrest⟩
      refine ⟨hb, ?_⟩
      intro x hx
      rcases (hmem x).mp hx with ⟨k, hk, hxk⟩
      rcases Nat.eq_zero_or_pos k with rfl | hkpos
      · exact h0 x hxk
      · have hm2 : (f k).foldl min b ∈ (List.range n).map
            (fun i => (f (i + 1)).foldl min b) := by
          refine List.mem_map.mpr ⟨k - 1, List.mem_range.mpr (by omega), ?_⟩
          have hkk : k - 1 + 1 = k := by omega
          rw [hkk]
        have h3 := hrest _ hm2
        rw [le_foldl_min_iff] at h3
        exact h3.2 x hxk
    · rintro ⟨hb, hA⟩
      refine ⟨⟨hb, fun x hx => hA x ((hmem x).mpr ⟨0, by omega, hx⟩)⟩, ?_⟩
      intro y hy
      rcases List.mem_map.mp hy with ⟨i, hi, rfl⟩
      rw [le_foldl_min_iff]
      refine ⟨hb, fun x hx => hA x ((hmem x).mpr ⟨i + 1, ?_, hx⟩)⟩
      have := List.mem_range.mp hi
      omega
  have h1 := (key (A.foldl min b)).mpr (le_refl _)
  have h2 := (key _).mp (le_refl _)
  omega

theorem heightRange_eq_of (a b : HeightRange) (h1 : a.mMin = b.mMin)
    (h2 : a.mMax = b.mMax) : a = b := by
  cases a
  cases b
  simp_all

theorem intersect_self (h : HeightRange) : h.Intersect h = h := by
  cases h
  simp [HeightRange.Intersect]

theorem interFold_subset_empty (hr : HeightRange) (K1 K2 : List TxKernel)
    (hsub : ∀ x, x ∈ K1 → x ∈ K2)
    (he : (interFold hr K1).IsEmpty = true) :
    (interFold hr K2).IsEmpty = true := by
  have hm1 : (interFold hr K1).mMin ≤ (interFold hr K2).mMin := by
    rw [interFold_min, interFold_min]
    rw [foldl_max_le_iff]
    have hfacts := (foldl_max_le_iff (K2.map TxKernel.hMin) hr.mMin
      ((K2.map TxKernel.hMin).foldl max hr.mMin)).mp (le_refl _)
    refine ⟨hfacts.1, ?_⟩
    intro x hx
    rcases List.mem_map.mp hx with ⟨t, ht, rfl⟩
    exact hfacts.2 _ (List.mem_map.mpr ⟨t, hsub t ht, rfl⟩)
  have hm2 : (interFold hr K2).mMax ≤ (interFold hr K1).mMax := by
    rw [interFold_max, interFold_max]
    rw [le_foldl_min_iff]
    have hfacts := (le_foldl_min_iff (K2.map TxKernel.hMax) hr.mMax
      ((K2.map TxKernel.hMax).foldl min hr.mMax)).mp (le_refl _)
    refine ⟨hfacts.1, ?_⟩
    intro x hx
    rcases List.mem_map.mp hx with ⟨t, ht, rfl⟩
    exact hfacts.2 _ (List.mem_map.mpr ⟨t, hsub t ht, rfl⟩)
  unfold HeightRange.IsEmpty at *
  simp only [decide_eq_true_eq] at *
  omega

theorem zeroBig_wf : (⟨0, 0⟩ : AmountBig).Wf := by
  constructor <;> (show 0 < W64; unfold W64; omega)

theorem shardFee_wf_val (N k : Nat) (r : TxData)
    (hfee : ∀ kk ∈ r.vKernelsOutput, ∀ f ∈ TxKernel.treeFees kk, f < W64) :
    (shardFee N k r).Wf ∧
    (shardFee N k r).val = (koutFees (shardF4 N k r)).sum % W128 := by
  have hb : ∀ f ∈ koutFees (shardF4 N k r), f < W64 := by
    intro f hf
    rcases List.mem_flatMap.mp hf with ⟨t, ht, hft⟩
    have ht2 := (List.mem_filter.mp ht).1
    exact hfee _ (annot_mem _ _ _ _ ht2) f hft
  have h := foldl_addAmount_val (koutFees (shardF4 N k r)) ⟨0, 0⟩ zeroBig_wf hb
  refine ⟨h.1, ?_⟩
  unfold shardFee
  rw [h.2]
  simp [AmountBig.val]

theorem shardCb_wf_val (N k : Nat) (r : TxData)
    (hcb : ∀ o ∈ r.vOutputs, ∀ pp : PubProof, o.mpPublic = some pp →
      pp.mValue < W64) :
    (shardCb N k r).Wf ∧
    (shardCb N k r).val = ((shardF3 N k r).flatMap outCb).sum % W128 := by
  have hb : ∀ v ∈ (shardF3 N k r).flatMap outCb, v < W64 := by
    intro v hv
    rcases List.mem_flatMap.mp hv with ⟨t, ht, hvt⟩
    have ht2 := annot_mem _ _ _ _ (List.mem_filter.mp ht).1
    unfold outCb at hvt
    by_cases hco : t.2.2.mCoinbase = true
    · rw [if_pos hco] at hvt
      rcases hpp : t.2.2.mpPublic with _ | pp
      · rw [hpp] at hvt
        simp at hvt
      · rw [hpp] at hvt
        simp at hvt
        subst hvt
        exact hcb _ ht2 pp hpp
    · rw [if_neg hco] at hvt
      simp at hvt
  have h := foldl_addAmount_val ((shardF3 N k r).flatMap outCb) ⟨0, 0⟩
    zeroBig_wf hb
  refine ⟨h.1, ?_⟩
  unfold shardCb
  rw [h.2]
  simp [AmountBig.val]

theorem shardSigma_total {Pt : Type} [AddCommGroup Pt] (P : Prims Pt) (R : Rules)
    (N : Nat) (hN : 0 < N) (r : TxData) (off : Nat) :
    (Finset.range N).sum (fun k => shardSigma P R N k r off) =
      shardSigma P R 1 0 r off := by
  unfold shardSigma shardF1 shardF2 shardF3 shardF4
  rw [Finset.sum_add_distrib, Finset.sum_add_distrib, Finset.sum_add_distrib,
    Finset.sum_neg_distrib, Finset.sum_add_distrib]
  rw [filter_mod_partition_sum N hN (fun t => t.1) (inpDelta P)
      (annot 0 none r.vInputs),
    filter_mod_partition_sum N hN (fun t => t.1) (kinDelta P)
      (annot r.vInputs.length none r.vKernelsInput),
    filter_mod_partition_sum N hN (fun t => t.1) (outDelta P R)
      (annot (r.vInputs.length + r.vKernelsInput.length) none r.vOutputs),
    filter_mod_partition_sum N hN (fun t => t.1) (kinDelta P)
      (annot (r.vInputs.length + r.vKernelsInput.length + r.vOutputs.length)
        none r.vKernelsOutput),
    Finset.sum_ite_eq (Finset.range N) (totalSlots r % N)
      (fun _ => off • P.G)]
  rw [if_pos (Finset.mem_range.mpr (Nat.mod_lt _ hN))]
  rw [filter_mod_one (fun t => t.1) (annot 0 none r.vInputs),
    filter_mod_one (fun t => t.1) (annot r.vInputs.length none r.vKernelsInput),
    filter_mod_one (fun t => t.1)
      (annot (r.vInputs.length + r.vKernelsInput.length) none r.vOutputs),
    filter_mod_one (fun t => t.1)
      (annot (r.vInputs.length + r.vKernelsInput.length + r.vOutputs.length)
        none r.vKernelsOutput)]
  simp [Nat.mod_one]

theorem shardFee_total (N m : Nat) (hNm : N = m + 1) (r : TxData)
    (hfee : ∀ kk ∈ r.vKernelsOutput, ∀ f ∈ TxKernel.treeFees kk, f < W64) :
    ((List.range m).map (fun i => shardFee N (i + 1) r)).foldl AmountBig.addBig
        (shardFee N 0 r) = shardFee 1 0 r := by
  have hN : 0 < N := by omega
  have hwf : ∀ k, (shardFee N k r).Wf := fun k => (shardFee_wf_val N k r hfee).1
  have hch := addBig_chain_val (fun k => shardFee N k r) m hwf
  have hsingle := shardFee_wf_val 1 0 r hfee
  apply AmountBig.val_inj _ _ hch.1 hsingle.1
  rw [hch.2, hsingle.2]
  have hv : ∀ k, (shardFee N k r).val = (koutFees (shardF4 N k r)).sum % W128 :=
    fun k => (shardFee_wf_val N k r hfee).2
  rw [show ((List.range (m + 1)).map (fun k => (shardFee N k r).val)) =
      ((List.range (m + 1)).map (fun k => (koutFees (shardF4 N k r)).sum)).map
        (fun x => x % W128) from by
    rw [List.map_map]
    exact List.map_congr_left (fun k _ => hv k)]
  rw [sum_mod_collapse]
  congr 1
  rw [← hNm, list_range_sum]
  unfold koutFees shardF4
  rw [filter_mod_one (fun t => t.1)
    (annot (r.vInputs.length + r.vKernelsInput.length + r.vOutputs.length)
      none r.vKernelsOutput)]
  rw [Finset.sum_congr rfl (fun k _ => sum_flatMap
    (fun t : Nat × Option TxKernel × TxKernel => TxKernel.treeFees t.2.2) _)]
  rw [filter_mod_partition_sum N hN (fun t => t.1)
    (fun t => (TxKernel.treeFees t.2.2).sum)
    (annot (r.vInputs.length + r.vKernelsInput.length + r.vOutputs.length)
      none r.vKernelsOutput)]
  rw [← sum_flatMap]

theorem shardCb_total (N m : Nat) (hNm : N = m + 1) (r : TxData)
    (hcb : ∀ o ∈ r.vOutputs, ∀ pp : PubProof, o.mpPublic = some pp →
      pp.mValue < W64) :
    ((List.range m).map (fun i => shardCb N (i + 1) r)).foldl AmountBig.addBig
        (shardCb N 0 r) = shardCb 1 0 r := by
  have hN : 0 < N := by omega
  have hwf : ∀ k, (shardCb N k r).Wf := fun k => (shardCb_wf_val N k r hcb).1
  have hch := addBig_chain_val (fun k => shardCb N k r) m hwf
  have hsingle := shardCb_wf_val 1 0 r hcb
  apply AmountBig.val_inj _ _ hch.1 hsingle.1
  rw [hch.2, hsingle.2]
  have hv : ∀ k, (shardCb N k r).val =
      ((shardF3 N k r).flatMap outCb).sum % W128 :=
    fun k => (shardCb_wf_val N k r hcb).2
  rw [show ((List.range (m + 1)).map (fun k => (shardCb N k r).val)) =
      ((List.range (m + 1)).map (fun k =>
        ((shardF3 N k r).flatMap outCb).sum)).map (fun x => x % W128) from by
    rw [List.map_map]
    exact List.map_congr_left (fun k _ => hv k)]
  rw [sum_mod_collapse]
  congr 1
  rw [← hNm, list_range_sum]
  unfold shardF3
  rw [filter_mod_one (fun t => t.1)
    (annot (r.vInputs.length + r.vKernelsInput.length) none r.vOutputs)]
  rw [Finset.sum_congr rfl (fun k _ => sum_flatMap outCb _)]
  rw [filter_mod_partition_sum N hN (fun t => t.1) (fun t => (outCb t).sum)
    (annot (r.vInputs.length + r.vKernelsInput.length) none r.vOutputs)]
  rw [← sum_flatMap]

theorem shardKernels_mem_iff (N : Nat) (hN : 0 < N) (r : TxData)
    (g : TxKernel → Nat) (x : Nat) :
    x ∈ (shardKernels 1 0 r).map g ↔
      ∃ k, k < N ∧ x ∈ (shardKernels N k r).map g := by
  unfold shardKernels shardF4
  rw [filter_mod_one (fun t => t.1)
    (annot (r.vInputs.length + r.vKernelsInput.length + r.vOutputs.length)
      none r.vKernelsOutput)]
  constructor
  · intro hx
    rcases List.mem_map.mp hx with ⟨t0, ht0, rfl⟩
    rcases List.mem_map.mp ht0 with ⟨t, ht, rfl⟩
    refine ⟨t.1 % N, Nat.mod_lt _ hN, ?_⟩
    refine List.mem_map.mpr ⟨t.2.2, ?_, rfl⟩
    exact List.mem_map.mpr ⟨t, List.mem_filter.mpr ⟨ht, by simp⟩, rfl⟩
  · rintro ⟨k, hk, hx⟩
    rcases List.mem_map.mp hx with ⟨t0, ht0, rfl⟩
    rcases List.mem_map.mp ht0 with ⟨t, ht, rfl⟩
    refine List.mem_map.mpr ⟨t.2.2, ?_, rfl⟩
    exact List.mem_map.mpr ⟨t, (List.mem_filter.mp ht).1, rfl⟩

theorem shardKernels_subset (N k : Nat) (r : TxData) :
    ∀ x, x ∈ shardKernels N k r → x ∈ shardKernels 1 0 r := by
  intro x hx
  unfold shardKernels shardF4 at *
  rw [filter_mod_one (fun t => t.1)
    (annot (r.vInputs.length + r.vKernelsInput.length + r.vOutputs.length)
      none r.vKernelsOutput)]
  rcases List.mem_map.mp hx with ⟨t, ht, rfl⟩
  exact List.mem_map.mpr ⟨t, (List.mem_filter.mp ht).1, rfl⟩

theorem shardHeight_total (hr : HeightRange) (N m : Nat) (hNm : N = m + 1)
    (r : TxData) :
    hFold (interFold hr (shardKernels N 0 r))
      ((List.range m).map (fun i => interFold hr (shardKernels N (i + 1) r))) =
      interFold hr (shardKernels 1 0 r) := by
  subst hNm
  have hN : 0 < m + 1 := by omega
  apply heightRange_eq_of
  · rw [hFold_min, interFold_min, interFold_min, List.map_map]
    rw [show ((List.range m).map (HeightRange.mMin ∘ fun i =>
        interFold hr (shardKernels (m + 1) (i + 1) r))) =
        (List.range m).map (fun i =>
          ((shardKernels (m + 1) (i + 1) r).map TxKernel.hMin).foldl max
            hr.mMin) from
      List.map_congr_left (fun i _ => interFold_min _ _)]
    exact foldl_max_nested hr.mMin
      (fun k => (shardKernels (m + 1) k r).map TxKernel.hMin) m
      ((shardKernels 1 0 r).map TxKernel.hMin)
      (fun x => shardKernels_mem_iff (m + 1) hN r TxKernel.hMin x)
  · rw [hFold_max, interFold_max, interFold_max, List.map_map]
    rw [show ((List.range m).map (HeightRange.mMax ∘ fun i =>
        interFold hr (shardKernels (m + 1) (i + 1) r))) =
        (List.range m).map (fun i =>
          ((shardKernels (m + 1) (i + 1) r).map TxKernel.hMax).foldl min
            hr.mMax) from
      List.map_congr_left (fun i _ => interFold_max _ _)]
    exact foldl_min_nested hr.mMax
      (fun k => (shardKernels (m + 1) k r).map TxKernel.hMax) m
      ((shardKernels 1 0 r).map TxKernel.hMax)
      (fun x => shardKernels_mem_iff (m + 1) hN r TxKernel.hMax x)

theorem shardOk_one {Pt : Type} [AddCommGroup Pt] (P : Prims Pt) (R : Rules)
    (hr : HeightRange) (bm : Bool) (r : TxData) :
    shardOk P R hr bm 1 0 r =
      ((annot 0 none r.vInputs).all (inpCheck P) &&
       (annot r.vInputs.length none r.vKernelsInput).all (kinCheck P) &&
       (annot (r.vInputs.length + r.vKernelsInput.length) none r.vOutputs).all
         (outCheck P R bm) &&
       (if bm then (annot (r.vInputs.length + r.vKernelsInput.length +
           r.vOutputs.length) none r.vKernelsOutput).all (koutCheckB P hr)
        else (annot (r.vInputs.length + r.vKernelsInput.length +
           r.vOutputs.length) none r.vKernelsOutput).all (koutCheck P) &&
          ((shardKernels 1 0 r).isEmpty ||
           !(interFold hr (shardKernels 1 0 r)).IsEmpty))) := by
  unfold shardOk shardF1 shardF2 shardF3 shardF4
  rw [filter_mod_one (fun t => t.1) (annot 0 none r.vInputs),
    filter_mod_one (fun t => t.1) (annot r.vInputs.length none r.vKernelsInput),
    filter_mod_one (fun t => t.1)
      (annot (r.vInputs.length + r.vKernelsInput.length) none r.vOutputs),
    filter_mod_one (fun t => t.1)
      (annot (r.vInputs.length + r.vKernelsInput.length + r.vOutputs.length)
        none r.vKernelsOutput)]

theorem foldl_proj_addBig {α : Type} (g : α → AmountBig) :
    ∀ (l : List α) (b : AmountBig),
    l.foldl (fun a x => a.addBig (g x)) b = (l.map g).foldl AmountBig.addBig b := by
  intro l
  induction l with
  | nil => intro b; rfl
  | cons x rest ih =>
    intro b
    rw [List.foldl_cons, List.map_cons, List.foldl_cons, ih]

/-- **C2**: for every `N ∈ [1,8]` and every transaction stream, running
`ValidateAndSummarize` in `N` fresh contexts sharing `verifiers = N` with
distinct `verifier_index ∈ [0,N)` and combining the results with `Merge`
accepts exactly the same transactions, with the same commitment sum, fee
and coinbase totals (and height window), as a single context with
`verifiers = 1`.  The fee and coinbase amounts are genuine 64-bit values,
as in the source. -/
theorem sharding_equivalence {Pt : Type} [AddCommGroup Pt] (P : Prims Pt)
    (R : Rules) (hr : HeightRange) (bm : Bool) (off : Nat) (r : TxData)
    (N : Nat) (hN : 1 ≤ N) (hN8 : N ≤ 8)
    (hfee : ∀ kk ∈ r.vKernelsOutput, ∀ f ∈ TxKernel.treeFees kk, f < W64)
    (hcb : ∀ o ∈ r.vOutputs, ∀ pp : PubProof, o.mpPublic = some pp →
      pp.mValue < W64) :
    (shardedRun P R hr bm false off r N).map ctxKey =
      (ValidateAndSummarize P R (baseCtx hr bm 1 0 false) off r).map ctxKey := by
  obtain ⟨m, rfl⟩ : ∃ m, N = m + 1 := ⟨N - 1, by omega⟩
  by_cases hhr : hr.IsEmpty = true
  case pos =>
    have hvasAny : ∀ (n kk : Nat),
        ValidateAndSummarize P R (baseCtx hr bm n kk false) off r = none := by
      intro n kk
      unfold ValidateAndSummarize
      dsimp only [baseCtx]
      rw [hhr]
      try simp only [reduceIte]
      try rfl
    unfold shardedRun
    rw [shardResults, hvasAny (m + 1) m, hvasAny 1 0]
    rcases shardResults P R hr bm false off r (m + 1) m with _ | l <;> rfl
  case neg =>
    have hhrf : hr.IsEmpty = false := Bool.eq_false_iff.mpr hhr
    have hN1 : (0 : Nat) < 1 := by omega
    unfold shardedRun
    rw [shardResults_eq P R hr bm off r (m + 1) (by omega) hhrf (m + 1)
      (le_refl _)]
    rw [vas_shard_eq P R hr bm off r 1 0 hN1 hN1 hhrf]
    rcases hms : matchScan r.vKernelsInput r.vKernelsOutput with _ | kosf
    · have hc1 : ¬ (((List.range (m + 1)).all (fun k =>
          (none : Option (List TxKernel)).isSome &&
          shardOk P R hr bm (m + 1) k r)) = true) := by
        intro hx
        have := List.all_eq_true.mp hx 0 (List.mem_range.mpr (by omega))
        simp at this
      rw [if_neg hc1]
      have hc2 : ¬ (((none : Option (List TxKernel)).isSome &&
          shardOk P R hr bm 1 0 r) = true) := by
        simp
      rw [if_neg hc2]
    · simp only [Option.isSome_some, Bool.true_and]
      by_cases hallN : ((List.range (m + 1)).all
          (fun k => shardOk P R hr bm (m + 1) k r)) = true
      case neg =>
        rw [if_neg hallN]
        have hallNf := Bool.eq_false_iff.mpr hallN
        rcases List.all_eq_false.mp hallNf with ⟨k, hkmem, hkf⟩
        have hk : k < m + 1 := List.mem_range.mp hkmem
        have hsf : shardOk P R hr bm 1 0 r = false := by
          rcases Bool.eq_false_or_eq_true (shardOk P R hr bm 1 0 r) with h | h
          · exfalso
            rw [shardOk_one] at h
            simp only [Bool.and_eq_true] at h
            obtain ⟨⟨⟨h1, h2⟩, h3⟩, h4⟩ := h
            have hf1 := (filter_mod_partition_all (m + 1) (by omega)
              (fun t : Nat × Option Input × Input => t.1) (inpCheck P) (annot 0 none r.vInputs)).mpr h1 k hk
            have hf2 := (filter_mod_partition_all (m + 1) (by omega)
              (fun t : Nat × Option TxKernel × TxKernel => t.1) (kinCheck P)
              (annot r.vInputs.length none r.vKernelsInput)).mpr h2 k hk
            have hf3 := (filter_mod_partition_all (m + 1) (by omega)
              (fun t : Nat × Option Output × Output => t.1) (outCheck P R bm)
              (annot (r.vInputs.length + r.vKernelsInput.length) none
                r.vOutputs)).mpr h3 k hk
            have hok : shardOk P R hr bm (m + 1) k r = true := by
              unfold shardOk shardF1 shardF2 shardF3 shardF4
              rw [hf1, hf2, hf3]
              cases bm with
              | true =>
                simp only [reduceIte] at h4 ⊢
                have hf4 := (filter_mod_partition_all (m + 1) (by omega)
                  (fun t : Nat × Option TxKernel × TxKernel => t.1) (koutCheckB P hr)
                  (annot (r.vInputs.length + r.vKernelsInput.length +
                    r.vOutputs.length) none r.vKernelsOutput)).mpr h4 k hk
                rw [hf4]
                rfl
              | false =>
                simp only [Bool.false_eq_true, if_false, Bool.and_eq_true]
                  at h4 ⊢
                obtain ⟨h4a, h4b⟩ := h4
                have hf4a := (filter_mod_partition_all (m + 1) (by omega)
                  (fun t : Nat × Option TxKernel × TxKernel => t.1) (koutCheck P)
                  (annot (r.vInputs.length + r.vKernelsInput.length +
                    r.vOutputs.length) none r.vKernelsOutput)).mpr h4a k hk
                refine ⟨⟨⟨trivial, trivial⟩, trivial⟩, hf4a, ?_⟩
                simp only [Bool.or_eq_true] at h4b
                rcases h4b with hE | hE
                · have hnil : shardKernels 1 0 r = [] := by
                    rcases hK : shardKernels 1 0 r with _ | ⟨a, as⟩
                    · rfl
                    · rw [hK] at hE
                      simp at hE
                  have hknil : shardKernels (m + 1) k r = [] := by
                    rcases hK2 : shardKernels (m + 1) k r with _ | ⟨a, as⟩
                    · rfl
                    · exfalso
                      have hmem : a ∈ shardKernels (m + 1) k r := by
                        rw [hK2]
                        exact List.mem_cons_self _ _
                      have hmem2 := shardKernels_subset (m + 1) k r a hmem
                      rw [hnil] at hmem2
                      simp at hmem2
                  rw [hknil]
                  rfl
                · cases hkk : (interFold hr (shardKernels (m + 1) k r)).IsEmpty with
                  | false => simp
                  | true =>
                    exfalso
                    have hfe := interFold_subset_empty hr
                      (shardKernels (m + 1) k r) (shardKernels 1 0 r)
                      (shardKernels_subset (m + 1) k r) hkk
                    rw [hfe] at hE
                    simp at hE
            rw [hok] at hkf
            simp at hkf
          · exact h
        rw [if_neg (by rw [hsf]; simp)]
      case pos =>
        rw [if_pos hallN]
        have hOkAll : ∀ k, k < m + 1 → shardOk P R hr bm (m + 1) k r = true :=
          fun k hk => List.all_eq_true.mp hallN k (List.mem_range.mpr hk)
        have hA : ∀ k, k < m + 1 →
            (shardF1 (m + 1) k r).all (inpCheck P) = true := by
          intro k hk
          have h := hOkAll k hk
          unfold shardOk at h
          simp only [Bool.and_eq_true] at h
          exact h.1.1.1
        have hB : ∀ k, k < m + 1 →
            (shardF2 (m + 1) k r).all (kinCheck P) = true := by
          intro k hk
          have h := hOkAll k hk
          unfold shardOk at h
          simp only [Bool.and_eq_true] at h
          exact h.1.1.2
        have hC : ∀ k, k < m + 1 →
            (shardF3 (m + 1) k r).all (outCheck P R bm) = true := by
          intro k hk
          have h := hOkAll k hk
          unfold shardOk at h
          simp only [Bool.and_eq_true] at h
          exact h.1.2
        have hD : ∀ k, k < m + 1 →
            (if bm then (shardF4 (m + 1) k r).all (koutCheckB P hr)
             else (shardF4 (m + 1) k r).all (koutCheck P) &&
               ((shardKernels (m + 1) k r).isEmpty ||
                !(interFold hr (shardKernels (m + 1) k r)).IsEmpty)) = true := by
          intro k hk
          have h := hOkAll k hk
          unfold shardOk at h
          simp only [Bool.and_eq_true] at h
          exact h.2
        have hFull1 : (annot 0 none r.vInputs).all (inpCheck P) = true :=
          (filter_mod_partition_all (m + 1) (by omega)
            (fun t : Nat × Option Input × Input => t.1)
            (inpCheck P) (annot 0 none r.vInputs)).mp (fun k hk => hA k hk)
        have hFull2 : (annot r.vInputs.length none r.vKernelsInput).all
            (kinCheck P) = true :=
          (filter_mod_partition_all (m + 1) (by omega) (fun t : Nat × Option TxKernel × TxKernel => t.1)
            (kinCheck P) (annot r.vInputs.length none r.vKernelsInput)).mp
            (fun k hk => hB k hk)
        have hFull3 : (annot (r.vInputs.length + r.vKernelsInput.length) none
            r.vOutputs).all (outCheck P R bm) = true :=
          (filter_mod_partition_all (m + 1) (by omega) (fun t : Nat × Option Output × Output => t.1)
            (outCheck P R bm)
            (annot (r.vInputs.length + r.vKernelsInput.length) none
              r.vOutputs)).mp (fun k hk => hC k hk)
        rw [List.range_succ_eq_map, List.map_cons]
        dsimp only
        have hcs : ∀ {γ : Type} (g : Context Pt → γ),
            ((((List.range m).map Nat.succ).map
              (fun k => shardCtx P R hr bm off r (m + 1) k)).map g) =
            (List.range m).map
              (fun i => g (shardCtx P R hr bm off r (m + 1) (i + 1))) := by
          intro γ g
          rw [List.map_map, List.map_map]
          rfl
        cases bm with
        | true =>
          have hD' : ∀ k, k < m + 1 →
              (shardF4 (m + 1) k r).all (koutCheckB P hr) = true := by
            intro k hk
            have h := hD k hk
            simpa using h
          have hFull4 : (annot (r.vInputs.length + r.vKernelsInput.length +
              r.vOutputs.length) none r.vKernelsOutput).all
              (koutCheckB P hr) = true :=
            (filter_mod_partition_all (m + 1) (by omega) (fun t : Nat × Option TxKernel × TxKernel => t.1)
              (koutCheckB P hr)
              (annot (r.vInputs.length + r.vKernelsInput.length +
                r.vOutputs.length) none r.vKernelsOutput)).mp
              (fun k hk => hD' k hk)
          have hsOk : shardOk P R hr true 1 0 r = true := by
            rw [shardOk_one]
            simp [hFull1, hFull2, hFull3, hFull4]
          rw [if_pos hsOk]
          rw [mergeList_block (((List.range m).map Nat.succ).map
            (fun k => shardCtx P R hr true off r (m + 1) k))
            (shardCtx P R hr true off r (m + 1) 0) rfl]
          have hmc : ((((List.range m).map Nat.succ).map
              (fun k => shardCtx P R hr true off r (m + 1) k)).all
              (fun x => !((shardCtx P R hr true off r
                (m + 1) 0).mHeight.Intersect x.mHeight).IsEmpty)) = true := by
            rw [List.all_eq_true]
            intro x hx
            rcases List.mem_map.mp hx with ⟨j, hj, rfl⟩
            show (!(hr.Intersect hr).IsEmpty) = true
            rw [intersect_self, hhrf]
            rfl
          rw [if_pos hmc]
          simp only [Option.map_some', Option.some.injEq, ctxKey,
            Prod.mk.injEq]
          refine ⟨?_, ?_, ?_, rfl⟩
          · show ((((List.range m).map Nat.succ).map
                (fun k => shardCtx P R hr true off r (m + 1) k)).foldl
                (fun a x => a + x.mSigma) (shardSigma P R (m + 1) 0 r off)) =
              shardSigma P R 1 0 r off
            rw [foldl_add_sum (fun x : Context Pt => x.mSigma)]
            rw [hcs]
            rw [show (List.range m).map (fun i =>
                (shardCtx P R hr true off r (m + 1) (i + 1)).mSigma) =
                (List.range m).map (fun i => shardSigma P R (m + 1) (i + 1)
                  r off) from rfl]
            rw [show shardSigma P R (m + 1) 0 r off +
                ((List.range m).map (fun i => shardSigma P R (m + 1) (i + 1)
                  r off)).sum =
                ((List.range (m + 1)).map (fun k => shardSigma P R (m + 1) k
                  r off)).sum from by
              rw [List.range_succ_eq_map, List.map_cons, List.sum_cons,
                List.map_map]
              rfl]
            rw [list_range_sum]
            exact shardSigma_total P R (m + 1) (by omega) r off
          · show ((((List.range m).map Nat.succ).map
                (fun k => shardCtx P R hr true off r (m + 1) k)).foldl
                (fun a x => a.addBig x.mFee) (shardFee (m + 1) 0 r)) =
              shardFee 1 0 r
            rw [foldl_proj_addBig (fun x : Context Pt => x.mFee)]
            rw [hcs]
            rw [show (List.range m).map (fun i =>
                (shardCtx P R hr true off r (m + 1) (i + 1)).mFee) =
                (List.range m).map (fun i => shardFee (m + 1) (i + 1) r)
                from rfl]
            exact shardFee_total (m + 1) m rfl r hfee
          · show ((((List.range m).map Nat.succ).map
                (fun k => shardCtx P R hr true off r (m + 1) k)).foldl
                (fun a x => a.addBig x.mCoinbase) (shardCb (m + 1) 0 r)) =
              shardCb 1 0 r
            rw [foldl_proj_addBig (fun x : Context Pt => x.mCoinbase)]
            rw [hcs]
            rw [show (List.range m).map (fun i =>
                (shardCtx P R hr true off r (m + 1) (i + 1)).mCoinbase) =
                (List.range m).map (fun i => shardCb (m + 1) (i + 1) r)
                from rfl]
            exact shardCb_total (m + 1) m rfl r hcb
        | false =>
          have hD' : ∀ k, k < m + 1 →
              (shardF4 (m + 1) k r).all (koutCheck P) = true ∧
              ((shardKernels (m + 1) k r).isEmpty ||
                !(interFold hr (shardKernels (m + 1) k r)).IsEmpty) = true := by
            intro k hk
            have h := hD k hk
            simp only [Bool.false_eq_true, if_false, Bool.and_eq_true] at h
            exact h
          have hFull4 : (annot (r.vInputs.length + r.vKernelsInput.length +
              r.vOutputs.length) none r.vKernelsOutput).all
              (koutCheck P) = true :=
            (filter_mod_partition_all (m + 1) (by omega) (fun t : Nat × Option TxKernel × TxKernel => t.1)
              (koutCheck P)
              (annot (r.vInputs.length + r.vKernelsInput.length +
                r.vOutputs.length) none r.vKernelsOutput)).mp
              (fun k hk => (hD' k hk).1)
          have hc0ne : (interFold hr (shardKernels (m + 1) 0 r)).IsEmpty =
              false := by
            have hd := (hD' 0 (by omega)).2
            rcases hker : shardKernels (m + 1) 0 r with _ | ⟨a, as⟩
            · exact hhrf
            · rw [hker] at hd
              simp only [List.isEmpty_cons, Bool.false_or] at hd
              cases hv : (interFold hr (a :: as)).IsEmpty
              · rfl
              · rw [hv] at hd
                simp at hd
          rw [mergeList_nonblock (((List.range m).map Nat.succ).map
            (fun k => shardCtx P R hr false off r (m + 1) k))
            (shardCtx P R hr false off r (m + 1) 0) rfl (by exact hc0ne)]
          rw [hcs Context.mHeight]
          rw [show (List.range m).map (fun i =>
              Context.mHeight (shardCtx P R hr false off r (m + 1) (i + 1))) =
              (List.range m).map (fun i =>
                interFold hr (shardKernels (m + 1) (i + 1) r)) from rfl]
          rw [show Context.mHeight (shardCtx P R hr false off r (m + 1) 0) =
              interFold hr (shardKernels (m + 1) 0 r) from rfl]
          rw [show hFold (interFold hr (shardKernels (m + 1) 0 r))
              ((List.range m).map (fun i =>
                interFold hr (shardKernels (m + 1) (i + 1) r))) =
              interFold hr (shardKernels 1 0 r) from
            shardHeight_total hr (m + 1) m rfl r]
          by_cases hHf : (interFold hr (shardKernels 1 0 r)).IsEmpty = true
          case pos =>
            have hfullne : (shardKernels 1 0 r).isEmpty = false := by
              rcases hK : shardKernels 1 0 r with _ | ⟨a, as⟩
              · exfalso
                rw [hK] at hHf
                rw [show interFold hr ([] : List TxKernel) = hr from rfl]
                  at hHf
                rw [hHf] at hhrf
                simp at hhrf
              · rfl
            have hsf : shardOk P R hr false 1 0 r = false := by
              rw [shardOk_one]
              simp [hfullne, hHf]
            rcases Nat.eq_zero_or_pos m with rfl | hm
            · exfalso
              have hd0 : ((shardKernels 1 0 r).isEmpty ||
                  !(interFold hr (shardKernels 1 0 r)).IsEmpty) = true :=
                (hD' 0 (by omega)).2
              rw [hfullne, hHf] at hd0
              simp at hd0
            · have hX : ((List.range m).map (fun i =>
                  interFold hr (shardKernels (m + 1) (i + 1) r))).isEmpty =
                  false := by
                obtain ⟨j, rfl⟩ : ∃ j, m = j + 1 := ⟨m - 1, by omega⟩
                rw [List.range_succ_eq_map]
                rfl
              rw [if_neg (by rw [hX, hHf]; simp)]
              rw [if_neg (by rw [hsf]; simp)]
          case neg =>
            have hHff : (interFold hr (shardKernels 1 0 r)).IsEmpty = false :=
              Bool.eq_false_iff.mpr hHf
            have hcond : ((((List.range m).map (fun i =>
                interFold hr (shardKernels (m + 1) (i + 1) r))).isEmpty ||
                !(interFold hr (shardKernels 1 0 r)).IsEmpty)) = true := by
              rw [hHff]
              simp
            rw [if_pos hcond]
            have hsOk : shardOk P R hr false 1 0 r = true := by
              rw [shardOk_one]
              simp [hFull1, hFull2, hFull3, hFull4, hHff]
            rw [if_pos hsOk]
            simp only [Option.map_some', Option.some.injEq, ctxKey,
              Prod.mk.injEq]
            refine ⟨?_, ?_, ?_, rfl⟩
            · show ((((List.range m).map Nat.succ).map
                  (fun k => shardCtx P R hr false off r (m + 1) k)).foldl
                  (fun a x => a + x.mSigma) (shardSigma P R (m + 1) 0 r off)) =
                shardSigma P R 1 0 r off
              rw [foldl_add_sum (fun x : Context Pt => x.mSigma)]
              rw [hcs]
              rw [show (List.range m).map (fun i =>
                  (shardCtx P R hr false off r (m + 1) (i + 1)).mSigma) =
                  (List.range m).map (fun i => shardSigma P R (m + 1) (i + 1)
                    r off) from rfl]
              rw [show shardSigma P R (m + 1) 0 r off +
                  ((List.range m).map (fun i => shardSigma P R (m + 1) (i + 1)
                    r off)).sum =
                  ((List.range (m + 1)).map (fun k => shardSigma P R (m + 1) k
                    r off)).sum from by
                rw [List.range_succ_eq_map, List.map_cons, List.sum_cons,
                  List.map_map]
                rfl]
              rw [list_range_sum]
              exact shardSigma_total P R (m + 1) (by omega) r off
            · show ((((List.range m).map Nat.succ).map
                  (fun k => shardCtx P R hr false off r (m + 1) k)).foldl
                  (fun a x => a.addBig x.mFee) (shardFee (m + 1) 0 r)) =
                shardFee 1 0 r
              rw [foldl_proj_addBig (fun x : Context Pt => x.mFee)]
              rw [hcs]
              rw [show (List.range m).map (fun i =>
                  (shardCtx P R hr false off r (m + 1) (i + 1)).mFee) =
                  (List.range m).map (fun i => shardFee (m + 1) (i + 1) r)
                  from rfl]
              exact shardFee_total (m + 1) m rfl r hfee
            · show ((((List.range m).map Nat.succ).map
                  (fun k => shardCtx P R hr false off r (m + 1) k)).foldl
                  (fun a x => a.addBig x.mCoinbase) (shardCb (m + 1) 0 r)) =
                shardCb 1 0 r
              rw [foldl_proj_addBig (fun x : Context Pt => x.mCoinbase)]
              rw [hcs]
              rw [show (List.range m).map (fun i =>
                  (shardCtx P R hr false off r (m + 1) (i + 1)).mCoinbase) =
                  (List.range m).map (fun i => shardCb (m + 1) (i + 1) r)
                  from rfl]
              exact shardCb_total (m + 1) m rfl r hcb

/-- Witness: the sharding equivalence applied at `N = 2` over the empty
stream, with all hypotheses discharged concretely. -/
theorem sharding_equivalence_witness :
    1 ≤ 2 ∧ 2 ≤ 8 ∧
    (shardedRun cPrims cRules ⟨1, 10⟩ false false 0 ⟨[], [], [], []⟩ 2).map
        ctxKey =
      (ValidateAndSummarize cPrims cRules (baseCtx ⟨1, 10⟩ false 1 0 false) 0
        ⟨[], [], [], []⟩).map ctxKey :=
  ⟨by omega, by omega,
    sharding_equivalence cPrims cRules ⟨1, 10⟩ false 0 ⟨[], [], [], []⟩ 2
      (by omega) (by omega) (by simp) (by simp)⟩

end BeamSpec
